import Mathlib

/-!
Verification of the WAMM_Map repository's gazetteer generator
(`Tools_and_scripts/gaz.py`) and GeoJSON name backfiller
(`Tools_and_scripts/geojson_add_names.py`).

The Python code is shallowly embedded:
* a CSV row / JSON property mapping is an association list whose most
  recent binding shadows older ones (Python dict write semantics);
* the mutable heap of `Division` namedtuples reachable from the global
  `ROOT` is an arena (`List Division`) addressed by `Nat` ids, with
  index 0 playing the role of `ROOT`; `children` holds arena ids;
* Python string primitives that the code uses (`strip`, `re.sub`,
  `split`, comparison) are implemented over `List Char` so that every
  definition evaluates inside the kernel;
* `sorted` (a stable sort) is modelled by `List.insertionSort`, which
  produces the stable sorted permutation;
* fallible operations (dict `[]` lookups that may raise `KeyError`)
  return `Option`.
-/

namespace WAMM

/-- One administrative hierarchy level: display name, abbreviation and CSV
column heading (`Level = namedtuple('Level', ['name', 'abbr', 'key'])`). -/
structure Level where
  name : String
  abbr : String
  key : String
deriving DecidableEq, Repr

/-- A CSV row or JSON property mapping: association list from key to value.
Lookup takes the first binding, so prepending models a dict write. -/
abbrev Row := List (String × String)

/-- Python dict write `row[k] = v`: the new binding shadows any older one. -/
def rowSet (row : Row) (k v : String) : Row := (k, v) :: row

/-- `Division = namedtuple('Division', ['name', 'path', 'children', 'row'])`;
`children` holds arena ids of the child divisions. -/
structure Division where
  name : String
  path : List String
  children : List Nat
  row : Row
deriving DecidableEq, Repr

/-- `ROOT = Division(name='', path=(), children=[], row={})`. -/
def ROOT : Division := { name := "", path := [], children := [], row := [] }

/-- State of the builder: the heap of `Division` objects (index 0 is the
module-global `ROOT`) and the per-level division lists. -/
structure BuildState where
  arena : List Division
  division_lists : List (List Nat)
deriving DecidableEq, Repr

/-- Dereference an arena id (out-of-range ids never occur in reachable states). -/
def getDiv (arena : List Division) (i : Nat) : Division := arena.getD i ROOT

/-- The division list of one level. -/
def getList (dls : List (List Nat)) (i : Nat) : List Nat := dls.getD i []

/-! ### Python string primitives over `List Char` -/

/-- Python `str.strip()`: drop leading and trailing whitespace. -/
def pyStrip (s : String) : String :=
  ⟨((s.data.dropWhile Char.isWhitespace).reverse.dropWhile Char.isWhitespace).reverse⟩

/-- `re.sub(r'[<>&_]', ' ', s)`: each of the characters `< >& _` becomes a space. -/
def subMarkup (s : String) : String :=
  ⟨s.data.map (fun c => if c = '<' ∨ c = '>' ∨ c = '&' ∨ c = '_' then ' ' else c)⟩

/-- Helper for `pySplitWs`: `acc` holds the current word reversed. -/
def splitWsAux : List Char → List Char → List String
  | [], acc => if acc.isEmpty then [] else [⟨acc.reverse⟩]
  | c :: cs, acc =>
    if c.isWhitespace then
      if acc.isEmpty then splitWsAux cs [] else (⟨acc.reverse⟩ : String) :: splitWsAux cs []
    else splitWsAux cs (c :: acc)

/-- Python `str.split()` with no argument: split on whitespace runs, dropping
empty words. -/
def pySplitWs (s : String) : List String := splitWsAux s.data []

/-! ### gaz.py core definitions -/

/-- `row[level.key].strip() or None`. -/
def stripOrNone (s : String) : Option String :=
  if pyStrip s = "" then none else some (pyStrip s)

/-- `normalize_name` from gaz.py: literal `OTHER` (after stripping) becomes
`(other)`; otherwise markup characters become spaces and whitespace runs
collapse to single spaces. -/
def normalize_name (name : Option String) : String :=
  if pyStrip (name.getD "") = "OTHER" then "(other)"
  else " ".intercalate (pySplitWs (subMarkup (name.getD "")))

/-- The default site-specific schema `DEFAULT_LEVELS`. -/
def DEFAULT_LEVELS : List Level :=
  [ { name := "District", abbr := "D", key := "loc_adm1" },
    { name := "Chiefdom", abbr := "C", key := "loc_adm2" },
    { name := "Section",  abbr := "S", key := "loc_adm3" },
    { name := "Village",  abbr := "V", key := "VILLAGE_NAME" } ]

/-- The create branch of the descent: allocate
`Division(name=name, path=node.path + (name,), children=[], row=row)`,
append its id to the parent's children and to level `i`'s division list. -/
def createState (st : BuildState) (nodeId i : Nat) (name : String) (row : Row) :
    BuildState :=
  let node := getDiv st.arena nodeId
  let cid := st.arena.length
  ⟨(st.arena.set nodeId { node with children := node.children ++ [cid] }) ++
     [{ name := name, path := node.path ++ [name], children := [], row := row }],
   st.division_lists.set i (getList st.division_lists i ++ [cid])⟩

/-- The per-row descent of `read_divisions`: walk the levels, reusing a
same-named child at non-leaf levels (`level is not levels[-1]`) and creating
a fresh division otherwise; an empty normalized name stops the descent.
`nodeId` is the current parent, `i` the current level position, and the list
argument holds the remaining stripped cell values. -/
def insertLoop (levels : List Level) (row : Row) :
    Nat → Nat → List (Option String) → BuildState → BuildState
  | _, _, [], st => st
  | nodeId, i, rawName :: rest, st =>
    let name := normalize_name rawName
    if name = "" then st
    else
      match (if i + 1 = levels.length then none
             else (getDiv st.arena nodeId).children.find?
               (fun cid => (getDiv st.arena cid).name == name)) with
      | some cid => insertLoop levels row cid (i + 1) rest st
      | none => insertLoop levels row st.arena.length (i + 1) rest
          (createState st nodeId i name row)

/-- One iteration of the `for row in csv.DictReader(file)` loop: extract every
level's cell (a missing column raises `KeyError`, modelled as `none`), then
descend. -/
def processRow (levels : List Level) (st : BuildState) (row : Row) : Option BuildState :=
  match levels.mapM (fun l => row.lookup l.key) with
  | none => none
  | some vals => some (insertLoop levels row 0 0 (vals.map stripOrNone) st)

/-- `read_divisions(file, levels)` starting from heap `arena0` (the global
`ROOT` and whatever is already reachable from it); the division lists start
fresh (`[[] for level in levels]`). -/
def read_divisions_from (levels : List Level) (arena0 : List Division)
    (rows : List Row) : Option BuildState :=
  rows.foldlM (fun st row => processRow levels st row) ⟨arena0, levels.map (fun _ => [])⟩

/-- The heap holding nothing but the pristine `ROOT`: the state of the module
globals in a fresh process. -/
def freshArena : List Division := [ROOT]

/-- `read_divisions` as executed by `main` in a fresh process. -/
def read_divisions (levels : List Level) (rows : List Row) : Option BuildState :=
  read_divisions_from levels freshArena rows

/-! ### Sorting and numbering -/

/-- Python code-point comparison of strings, as lexicographic comparison of
their character lists. -/
def charsLt : List Char → List Char → Bool
  | _, [] => false
  | [], _ :: _ => true
  | a :: as, b :: bs => if a < b then true else if b < a then false else charsLt as bs

/-- Python `a < b` on strings. -/
def strLt (a b : String) : Bool := charsLt a.data b.data

/-- Python `a <= b` on lists of strings (comparison of sort keys). -/
def keyLe : List String → List String → Bool
  | [], _ => true
  | _ :: _, [] => false
  | a :: as, b :: bs => if strLt a b then true else if strLt b a then false else keyLe as bs

/-- Strict comparison of sort keys: `a` sorts strictly before `b`. -/
def keyLt (a b : List String) : Bool := !(keyLe b a)

/-- The site-specific sort key:
`['~' if item in ['OTHER', '(other)'] else item for item in division.path]`. -/
def sortKey (path : List String) : List String :=
  path.map (fun item => if item = "OTHER" ∨ item = "(other)" then "~" else item)

/-- The comparison used by the site-specific `sort_divisions`. -/
def divLE (arena : List Division) (i j : Nat) : Prop :=
  keyLe (sortKey (getDiv arena i).path) (sortKey (getDiv arena j).path) = true

instance (arena : List Division) : DecidableRel (divLE arena) := fun i j => by
  unfold divLE; infer_instance

/-- The site-specific `sort_divisions`: Python `sorted` is a stable sort, so it
is modelled by the stable `insertionSort`. -/
def sort_divisions (arena : List Division) (ids : List Nat) : List Nat :=
  List.insertionSort (divLE arena) ids

/-- The rank index: Python dict from `path` to rank; the most recent write
shadows older ones. -/
abbrev Index := List (List String × Nat)

/-- Python `indexes[path]`. -/
def indexLookup (idx : Index) (p : List String) : Option Nat := idx.lookup p

/-- `for j, division in enumerate(sorted_divisions): indexes[division.path] = j + 1`. -/
def numberLevel (arena : List Division) : List Nat → Nat → Index → Index
  | [], _, idx => idx
  | d :: ds, j, idx => numberLevel arena ds (j + 1) (((getDiv arena d).path, j + 1) :: idx)

/-- Recursive form of the loop body of `sort_and_number_divisions`. -/
def sort_and_number_aux (arena : List Division) :
    List (List Nat) → Index → List (List Nat) × Index
  | [], idx => ([], idx)
  | ds :: rest, idx =>
    let s := sort_divisions arena ds
    let out := sort_and_number_aux arena rest (numberLevel arena s 0 idx)
    (s :: out.1, out.2)

/-- `sort_and_number_divisions(division_lists)`. -/
def sort_and_number_divisions (arena : List Division) (dls : List (List Nat)) :
    List (List Nat) × Index :=
  sort_and_number_aux arena dls []

/-- The whole builder: `read_divisions` followed by `sort_and_number_divisions`,
starting from heap `arena0`. -/
def run_builder (levels : List Level) (arena0 : List Division) (rows : List Row) :
    Option (BuildState × (List (List Nat) × Index)) :=
  match read_divisions_from levels arena0 rows with
  | none => none
  | some st => some (st, sort_and_number_divisions st.arena st.division_lists)

/-! ### Leaf-row fixup and rendering -/

/-- `fit_length(text, max_length)`. -/
def fit_length (text : String) (maxLength : Nat) : String :=
  if maxLength < text.length then text.take (maxLength - 3) ++ "..." else text

/-- The `VILLAGE_OTHER_NAMES` cell derived by `fix_up_division`: the optional
alternate and historical names, truncated and joined. -/
def other_names_cell (row : Row) : String :=
  let alt := pyStrip ((row.lookup "ALT_VILLAGE_NAME").getD "")
  let others := if alt = "" then ([] : List String) else [fit_length alt 24]
  let hist := pyStrip ((row.lookup "HISTORICAL_NAME").getD "")
  let others := others ++ (if hist = "" then [] else [fit_length hist 24 ++ " (old)"])
  "<br>".intercalate others

/-- The reformatted `CHIEF_NAME` cell derived by `fix_up_division`: drop a
leading `Chief` honorific and wrap overly long names. -/
def chief_cell (row : Row) : String :=
  let chiefWords := pySplitWs ((row.lookup "CHIEF_NAME").getD "")
  let chiefWords := if chiefWords.take 1 = ["Chief"] then chiefWords.drop 1 else chiefWords
  let chiefWords :=
    if 2 < chiefWords.length ∧ 20 < (" ".intercalate chiefWords).length then
      chiefWords.take 2 ++ ["<br>&nbsp;&nbsp;&nbsp;&nbsp;"] ++ chiefWords.drop 2
    else chiefWords
  " ".intercalate chiefWords

/-- The site-specific `fix_up_division`: derive `VILLAGE_OTHER_NAMES` from the
optional alternate and historical names and reformat `CHIEF_NAME`, writing
both back into the division's row (the chief name is read back from the row
after the first write, exactly as in the source). -/
def fix_up_division (division : Division) : Division :=
  let row1 := rowSet division.row "VILLAGE_OTHER_NAMES" (other_names_cell division.row)
  { division with row := rowSet row1 "CHIEF_NAME" (chief_cell row1) }

/-- Formatting `LEAF_ITEM_TEMPLATE`: the four cells read from the child's row
with Python `[]` lookups, each of which raises `KeyError` when the key is
absent (modelled as `none`). -/
def render_leaf_item (division : Division) : Option (List String) :=
  match division.row.lookup "VILLAGE_NAME", division.row.lookup "VILLAGE_OTHER_NAMES",
        division.row.lookup "CHIEF_NAME", division.row.lookup "VILLAGE_NAME_MEANING" with
  | some a, some b, some c, some d => some [a, b, c, d]
  | _, _, _, _ => none

/-- What `write_gazetteer` does to a leaf child: `fix_up_division(child)` then
format the leaf item template from its row. -/
def render_leaf_row (division : Division) : Option (List String) :=
  render_leaf_item (fix_up_division division)

/-! ### Gazetteer pages -/

/-- One page of `write_gazetteer`, kept as data: the level position, the
division id, the rank-index lookup for the page number, and for every sorted
child the pair of its id and its rank-index lookup. -/
structure GazPage where
  levelIdx : Nat
  divisionId : Nat
  pageIndex : Option Nat
  items : List (Nat × Option Nat)
deriving DecidableEq, Repr

/-- The pages emitted by `write_gazetteer`: one per division of every
non-leaf level (`zip(levels, levels[1:], division_lists)` ranges over the
first `len - 1` levels), each listing its sorted children with their
rank-index lookups. -/
def write_gazetteer_pages (arena : List Division) (sortedLists : List (List Nat))
    (idx : Index) : List GazPage :=
  (List.range (sortedLists.length - 1)).flatMap (fun i =>
    (getList sortedLists i).map (fun did =>
      { levelIdx := i
        divisionId := did
        pageIndex := indexLookup idx (getDiv arena did).path
        items := (sort_divisions arena (getDiv arena did).children).map
          (fun cid => (cid, indexLookup idx (getDiv arena cid).path)) }))

/-! ### Menu tree -/

/-- One column of `write_csv_menu_tree`: the `/`-joined path, then the sorted
child names; at the penultimate level a missing `(other)` entry is appended. -/
def menu_column (arena : List Division) (penult : Bool) (did : Nat) : List String :=
  let names := (sort_divisions arena (getDiv arena did).children).map
    (fun cid => (getDiv arena cid).name)
  let names := if penult = true ∧ "(other)" ∉ names then names ++ ["(other)"] else names
  ("/".intercalate (getDiv arena did).path) :: names

/-- The columns of `write_csv_menu_tree`, before transposition: groups are
`[[ROOT]] + division_lists[:-1]`, and a group is the penultimate level
exactly when it is the object `division_lists[-2]` (position `len - 1` among
the groups); with fewer than two levels the Python code raises `IndexError`
evaluating `division_lists[-2]`, modelled as `none`. -/
def write_csv_menu_tree_columns (arena : List Division)
    (sortedLists : List (List Nat)) : Option (List (List String)) :=
  if sortedLists.length < 2 then none
  else some ((([[0]] ++ sortedLists.dropLast).enum).flatMap (fun g =>
    g.2.map (menu_column arena (g.1 == sortedLists.length - 1))))

/-! ### geojson_add_names.py -/

/-- `name_keys`: admin-level keys for levels 0 through 5 in two conventions,
then `NAME`, `Name`, `name`. -/
def name_keys : List String :=
  ((List.range 6).flatMap (fun i =>
    ["ADM" ++ toString i ++ "_NAME", "admin" ++ toString i ++ "Name"])) ++
  ["NAME", "Name", "name"]

/-- Python truthiness of `props.get(key)` for string-valued properties. -/
def truthy (v : Option String) : Bool := !(v.getD "" == "")

/-- The per-feature body of geojson_add_names.py: a feature is its optional
property mapping; when the mapping is present, non-empty and lacks a truthy
`name`, scan `reversed(name_keys)` and write the first truthy hit to `name`. -/
def add_name (feature : Option Row) : Option Row :=
  match feature with
  | none => none
  | some props =>
    if props ≠ [] ∧ truthy (props.lookup "name") = false then
      match name_keys.reverse.find? (fun k => truthy (props.lookup k)) with
      | some k => some (rowSet props "name" ((props.lookup k).getD ""))
      | none => some props
    else some props

/-! ### Helper lemmas: association-list lookup -/

theorem lookup_mem_of_eq_some {α β : Type} [BEq α] [LawfulBEq α] {l : List (α × β)}
    {k : α} {v : β} (h : List.lookup k l = some v) : (k, v) ∈ l := by
  induction l with
  | nil => simp [List.lookup] at h
  | cons kv t ih =>
    rw [show kv = (kv.1, kv.2) from rfl, List.lookup_cons] at h
    rcases hbe : (k == kv.1) with _ | _
    · rw [hbe] at h
      exact List.mem_cons_of_mem _ (ih h)
    · rw [hbe] at h
      simp only [Option.some.injEq] at h
      simp [beq_iff_eq.mp hbe, ← h]

theorem lookup_isSome_of_key_mem {α β : Type} [BEq α] [LawfulBEq α] {l : List (α × β)}
    {k : α} {v : β} (h : (k, v) ∈ l) : (List.lookup k l).isSome := by
  induction l with
  | nil => simp at h
  | cons kv t ih =>
    rw [show kv = (kv.1, kv.2) from rfl, List.lookup_cons]
    rcases hbe : (k == kv.1) with _ | _
    · rcases List.mem_cons.mp h with h1 | h1
      · exact absurd (congrArg Prod.fst h1) (by simpa using hbe)
      · exact ih h1
    · rfl

theorem lookup_eq_none_of_keys_ne {α β : Type} [BEq α] [LawfulBEq α] {l : List (α × β)}
    {k : α} (h : ∀ kv ∈ l, kv.1 ≠ k) : List.lookup k l = none := by
  induction l with
  | nil => rfl
  | cons kv t ih =>
    rw [show kv = (kv.1, kv.2) from rfl, List.lookup_cons]
    have hne : ¬(k == kv.1) = true := by
      simp only [beq_iff_eq]
      exact fun he => (h kv (List.mem_cons_self kv t)) he.symm
    simp only [Bool.not_eq_true] at hne
    rw [hne]
    exact ih (fun kv' hm => h kv' (List.mem_cons_of_mem _ hm))

theorem lookup_append_some {α β : Type} [BEq α] [LawfulBEq α] {l₁ l₂ : List (α × β)}
    {k : α} {v : β} (h : List.lookup k l₁ = some v) :
    List.lookup k (l₁ ++ l₂) = some v := by
  rw [List.lookup_append, h]; rfl

theorem lookup_append_none {α β : Type} [BEq α] [LawfulBEq α] {l₁ l₂ : List (α × β)}
    {k : α} (h : List.lookup k l₁ = none) :
    List.lookup k (l₁ ++ l₂) = List.lookup k l₂ := by
  rw [List.lookup_append, h]; rfl

/-! ### Helper lemmas: arena and division lists -/

theorem getDiv_of_le {arena : List Division} {i : Nat} (h : arena.length ≤ i) :
    getDiv arena i = ROOT := by
  unfold getDiv
  rw [List.getD_eq_getElem?_getD, List.getElem?_eq_none h]
  rfl

theorem getDiv_lt {arena : List Division} {i : Nat} (h : i < arena.length) :
    getDiv arena i = arena[i] := by
  unfold getDiv
  rw [List.getD_eq_getElem?_getD, List.getElem?_eq_getElem h]
  rfl

theorem getList_of_le {dls : List (List Nat)} {i : Nat} (h : dls.length ≤ i) :
    getList dls i = [] := by
  unfold getList
  rw [List.getD_eq_getElem?_getD, List.getElem?_eq_none h]
  rfl

theorem getList_lt {dls : List (List Nat)} {i : Nat} (h : i < dls.length) :
    getList dls i = dls[i] := by
  unfold getList
  rw [List.getD_eq_getElem?_getD, List.getElem?_eq_getElem h]
  rfl

/-- Length of the updated arena in the create branch of `insertLoop`. -/
theorem arena_update_length (arena : List Division) (nodeId : Nat) (v c : Division) :
    ((arena.set nodeId v) ++ [c]).length = arena.length + 1 := by
  simp

/-- Reading an old id from the updated arena. -/
theorem getDiv_update_old {arena : List Division} {nodeId : Nat} {v c : Division}
    {id : Nat} (hid : id < arena.length) :
    getDiv ((arena.set nodeId v) ++ [c]) id = if nodeId = id then v else getDiv arena id := by
  unfold getDiv
  rw [List.getD_eq_getElem?_getD, List.getElem?_append_left (by simpa using hid),
    List.getElem?_set]
  by_cases h : nodeId = id
  · simp [h, hid]
  · simp only [h, if_false]
    rw [List.getD_eq_getElem?_getD]

/-- Reading the freshly appended id from the updated arena. -/
theorem getDiv_update_new {arena : List Division} {nodeId : Nat} {v c : Division} :
    getDiv ((arena.set nodeId v) ++ [c]) arena.length = c := by
  unfold getDiv
  have : (arena.set nodeId v).length = arena.length := by simp
  rw [List.getD_eq_getElem?_getD, ← this, List.getElem?_concat_length]
  rfl

/-- Reading an updated division-lists entry. -/
theorem getList_set {dls : List (List Nat)} {i : Nat} {v : List Nat} {j : Nat}
    (hi : i < dls.length) :
    getList (dls.set i v) j = if i = j then v else getList dls j := by
  unfold getList
  rw [List.getD_eq_getElem?_getD, List.getElem?_set]
  by_cases h : i = j
  · subst h
    simp [hi]
  · simp only [h, if_false]
    rw [List.getD_eq_getElem?_getD]

theorem getList_map_const_nil (levels : List Level) (i : Nat) :
    getList (levels.map (fun _ => ([] : List Nat))) i = [] := by
  rcases Nat.lt_or_ge i (levels.map (fun _ => ([] : List Nat))).length with h | h
  · rw [getList_lt h]
    simp
  · exact getList_of_le h

/-! ### Order lemmas for the sort comparison -/

theorem charsLt_nil_right (l : List Char) : charsLt l [] = false := by
  cases l <;> rfl

theorem charsLt_cons_cons (a b : Char) (as bs : List Char) :
    charsLt (a :: as) (b :: bs) =
      if a < b then true else if b < a then false else charsLt as bs := rfl

theorem charsLt_irrefl : ∀ l : List Char, charsLt l l = false
  | [] => rfl
  | a :: as => by
    rw [charsLt_cons_cons]
    simp [lt_irrefl, charsLt_irrefl as]

theorem charsLt_asymm : ∀ a b : List Char, charsLt a b = true → charsLt b a = false
  | _, [], h => by rw [charsLt_nil_right] at h; exact absurd h (by simp)
  | [], _ :: _, _ => charsLt_nil_right _
  | a :: as, b :: bs, h => by
    rw [charsLt_cons_cons] at h
    rw [charsLt_cons_cons]
    by_cases hab : a < b
    · simp [hab, lt_asymm hab]
    · by_cases hba : b < a
      · simp [hab, hba] at h
      · simp only [hab, if_false, hba] at h ⊢
        exact charsLt_asymm as bs h

theorem charsLt_eq_of_not_lt : ∀ a b : List Char,
    charsLt a b = false → charsLt b a = false → a = b
  | [], [], _, _ => rfl
  | [], _ :: _, h, _ => by simp [charsLt] at h
  | _ :: _, [], _, h2 => by simp [charsLt] at h2
  | a :: as, b :: bs, h, h2 => by
    rw [charsLt_cons_cons] at h h2
    by_cases hab : a < b
    · simp [hab] at h
    · by_cases hba : b < a
      · simp [hba, hab] at h2
      · simp only [hab, hba, if_false] at h h2
        have hchar : a = b := le_antisymm (not_lt.mp hba) (not_lt.mp hab)
        rw [hchar, charsLt_eq_of_not_lt as bs h h2]

theorem charsLt_trans : ∀ a b c : List Char,
    charsLt a b = true → charsLt b c = true → charsLt a c = true
  | _, _, [], _, h2 => by rw [charsLt_nil_right] at h2; exact absurd h2 (by simp)
  | _, [], _ :: _, h, _ => by rw [charsLt_nil_right] at h; exact absurd h (by simp)
  | [], _ :: _, _ :: _, _, _ => rfl
  | a :: as, b :: bs, c :: cs, h, h2 => by
    rw [charsLt_cons_cons] at h h2
    rw [charsLt_cons_cons]
    by_cases hab : a < b
    · by_cases hbc : b < c
      · simp [lt_trans hab hbc]
      · by_cases hcb : c < b
        · simp [hcb, hbc] at h2
        · have : b = c := le_antisymm (not_lt.mp hcb) (not_lt.mp hbc)
          simp [this ▸ hab]
    · by_cases hba : b < a
      · simp [hab, hba] at h
      · have hab' : a = b := le_antisymm (not_lt.mp hba) (not_lt.mp hab)
        subst hab'
        by_cases hac : a < c
        · simp [hac]
        · by_cases hca : c < a
          · simp [hac, hca] at h2
          · simp only [hab, if_false, lt_irrefl] at h
            simp only [hac, hca, if_false] at h2 ⊢
            exact charsLt_trans as bs cs h h2

theorem strLt_irrefl (s : String) : strLt s s = false := charsLt_irrefl s.data

theorem strLt_asymm {a b : String} (h : strLt a b = true) : strLt b a = false :=
  charsLt_asymm a.data b.data h

theorem strLt_eq_of_not_lt {a b : String} (h : strLt a b = false)
    (h2 : strLt b a = false) : a = b := by
  cases a with
  | mk da =>
    cases b with
    | mk db =>
      have : da = db := charsLt_eq_of_not_lt da db h h2
      rw [this]

theorem strLt_trans {a b c : String} (h : strLt a b = true) (h2 : strLt b c = true) :
    strLt a c = true := charsLt_trans a.data b.data c.data h h2

theorem keyLe_nil_left (l : List String) : keyLe [] l = true := by
  cases l <;> rfl

theorem keyLe_cons_cons (a b : String) (as bs : List String) :
    keyLe (a :: as) (b :: bs) =
      if strLt a b then true else if strLt b a then false else keyLe as bs := rfl

theorem keyLe_refl : ∀ l : List String, keyLe l l = true
  | [] => rfl
  | a :: as => by
    rw [keyLe_cons_cons]
    simp [strLt_irrefl, keyLe_refl as]

theorem keyLe_total : ∀ a b : List String, keyLe a b = true ∨ keyLe b a = true
  | [], _ => Or.inl (keyLe_nil_left _)
  | _ :: _, [] => Or.inr (keyLe_nil_left _)
  | a :: as, b :: bs => by
    rw [keyLe_cons_cons, keyLe_cons_cons]
    by_cases hab : strLt a b = true
    · simp [hab, charsLt_asymm _ _ hab]
    · by_cases hba : strLt b a = true
      · simp [hba, hab]
      · simp only [Bool.not_eq_true] at hab hba
        simp only [hab, hba, if_false]
        exact keyLe_total as bs

theorem keyLe_trans : ∀ a b c : List String,
    keyLe a b = true → keyLe b c = true → keyLe a c = true
  | [], _, _, _, _ => keyLe_nil_left _
  | _ :: _, [], _, h, _ => by simp [keyLe] at h
  | _ :: _, _ :: _, [], _, h2 => by simp [keyLe] at h2
  | a :: as, b :: bs, c :: cs, h, h2 => by
    rw [keyLe_cons_cons] at h h2
    rw [keyLe_cons_cons]
    by_cases hab : strLt a b = true
    · by_cases hbc : strLt b c = true
      · simp [strLt_trans hab hbc]
      · by_cases hcb : strLt c b = true
        · simp [hcb, hbc] at h2
        · simp only [Bool.not_eq_true] at hbc hcb
          have : b = c := strLt_eq_of_not_lt hbc hcb
          subst this
          simp [hab]
    · by_cases hba : strLt b a = true
      · simp [hab, hba] at h
      · simp only [Bool.not_eq_true] at hab hba
        have : a = b := strLt_eq_of_not_lt hab hba
        subst this
        by_cases hac : strLt a c = true
        · simp [hac]
        · by_cases hca : strLt c a = true
          · simp [hca, hac] at h2
          · simp only [hab, if_false, strLt_irrefl] at h
            simp only [hac, hca, if_false] at h2 ⊢
            exact keyLe_trans as bs cs h h2

theorem keyLt_eq_true_iff {a b : List String} : keyLt a b = true ↔ keyLe b a = false := by
  unfold keyLt
  cases keyLe b a <;> simp

/-! ### The builder invariant -/

/-- Number of leading cell values of a row whose normalized name is non-empty:
the descent of `insertLoop` stops after consuming this many levels. -/
def stopLen : List (Option String) → Nat
  | [] => 0
  | r :: rs => if normalize_name r = "" then 0 else 1 + stopLen rs

/-- What one step of the builder preserves: the arena only grows, existing
divisions keep their `name`, `path` and `row` (only `children` may be
appended to), and division lists only grow. -/
def Preserved (st st' : BuildState) : Prop :=
  st.arena.length ≤ st'.arena.length ∧
  (∀ id < st.arena.length,
     (getDiv st'.arena id).name = (getDiv st.arena id).name ∧
     (getDiv st'.arena id).path = (getDiv st.arena id).path ∧
     (getDiv st'.arena id).row = (getDiv st.arena id).row) ∧
  (∀ j, ∀ cid ∈ getList st.division_lists j, cid ∈ getList st'.division_lists j)

theorem Preserved_refl (st : BuildState) : Preserved st st :=
  ⟨le_refl _, fun _ _ => ⟨rfl, rfl, rfl⟩, fun _ _ h => h⟩

theorem Preserved_trans {s1 s2 s3 : BuildState} (h1 : Preserved s1 s2)
    (h2 : Preserved s2 s3) : Preserved s1 s3 := by
  obtain ⟨hl1, hp1, hd1⟩ := h1
  obtain ⟨hl2, hp2, hd2⟩ := h2
  refine ⟨le_trans hl1 hl2, fun id hid => ?_, fun j cid h => hd2 j cid (hd1 j cid h)⟩
  obtain ⟨a1, b1, c1⟩ := hp1 id hid
  obtain ⟨a2, b2, c2⟩ := hp2 id (lt_of_lt_of_le hid hl1)
  exact ⟨a2.trans a1, b2.trans b1, c2.trans c1⟩

/-- New divisions created while descending from a node at depth `i` sit at
depths `i + 1` through `i + m`. -/
def NewBound (st st' : BuildState) (i m : Nat) : Prop :=
  ∀ id, st.arena.length ≤ id → id < st'.arena.length →
    i < (getDiv st'.arena id).path.length ∧
    (getDiv st'.arena id).path.length ≤ i + m

/-- Structural invariant of every builder state reachable from a fresh root:
division lists parallel the levels; the root sits at arena index 0 with an
empty path; every child id is allocated, extends its parent's path by its own
name, and is recorded in its level's division list; every division list entry
is allocated with the path length of its level; and the children of any
division whose children are non-leaf divisions carry pairwise distinct names. -/
def Inv (levels : List Level) (st : BuildState) : Prop :=
  st.division_lists.length = levels.length ∧
  (0 < st.arena.length ∧ (getDiv st.arena 0).path = []) ∧
  (∀ nid < st.arena.length, ∀ cid ∈ (getDiv st.arena nid).children,
     cid < st.arena.length ∧
     (getDiv st.arena cid).path =
       (getDiv st.arena nid).path ++ [(getDiv st.arena cid).name] ∧
     cid ∈ getList st.division_lists (getDiv st.arena nid).path.length) ∧
  (∀ i < st.division_lists.length, ∀ cid ∈ getList st.division_lists i,
     cid < st.arena.length ∧ (getDiv st.arena cid).path.length = i + 1) ∧
  (∀ nid < st.arena.length,
     (getDiv st.arena nid).path.length + 1 < levels.length →
     ((getDiv st.arena nid).children.map (fun c => (getDiv st.arena c).name)).Nodup)

/-- The fresh state (`ROOT` with no children, empty division lists) satisfies
the invariant. -/
theorem Inv_fresh (levels : List Level) :
    Inv levels ⟨freshArena, levels.map (fun _ => [])⟩ := by
  have hroot : getDiv freshArena 0 = ROOT := by
    rw [getDiv_lt (by simp [freshArena])]
    rfl
  refine ⟨by simp, ⟨by simp [freshArena], by rw [hroot]; rfl⟩, ?_, ?_, ?_⟩
  · intro nid hnid cid hcid
    have : nid = 0 := by simpa [freshArena] using hnid
    subst this
    rw [hroot] at hcid
    simp [ROOT] at hcid
  · intro i _ cid hcid
    rw [getList_map_const_nil] at hcid
    simp at hcid
  · intro nid hnid _
    have : nid = 0 := by simpa [freshArena] using hnid
    subst this
    rw [hroot]
    simp [ROOT]

/-! ### Unfolding lemmas for the descent -/

theorem insertLoop_nil (levels : List Level) (row : Row) (nodeId i : Nat)
    (st : BuildState) : insertLoop levels row nodeId i [] st = st := rfl

theorem insertLoop_cons_stop {levels : List Level} {row : Row} {nodeId i : Nat}
    {st : BuildState} {rawName : Option String} {rest : List (Option String)}
    (h : normalize_name rawName = "") :
    insertLoop levels row nodeId i (rawName :: rest) st = st := by
  conv_lhs => rw [insertLoop]
  rw [if_pos h]

theorem insertLoop_cons_found {levels : List Level} {row : Row} {nodeId i : Nat}
    {st : BuildState} {rawName : Option String} {rest : List (Option String)}
    {cid : Nat} (h : normalize_name rawName ≠ "")
    (hfind : (if i + 1 = levels.length then none
      else (getDiv st.arena nodeId).children.find?
        (fun c => (getDiv st.arena c).name == normalize_name rawName)) = some cid) :
    insertLoop levels row nodeId i (rawName :: rest) st =
      insertLoop levels row cid (i + 1) rest st := by
  conv_lhs => rw [insertLoop]
  rw [if_neg h, hfind]

theorem insertLoop_cons_create {levels : List Level} {row : Row} {nodeId i : Nat}
    {st : BuildState} {rawName : Option String} {rest : List (Option String)}
    (h : normalize_name rawName ≠ "")
    (hfind : (if i + 1 = levels.length then none
      else (getDiv st.arena nodeId).children.find?
        (fun c => (getDiv st.arena c).name == normalize_name rawName)) = none) :
    insertLoop levels row nodeId i (rawName :: rest) st =
      insertLoop levels row st.arena.length (i + 1) rest
        (createState st nodeId i (normalize_name rawName) row) := by
  conv_lhs => rw [insertLoop]
  rw [if_neg h, hfind]

/-! ### createState facts -/

theorem createState_arena_length (st : BuildState) (nodeId i : Nat) (name : String)
    (row : Row) :
    (createState st nodeId i name row).arena.length = st.arena.length + 1 := by
  simp [createState]

theorem createState_dls_length (st : BuildState) (nodeId i : Nat) (name : String)
    (row : Row) :
    (createState st nodeId i name row).division_lists.length =
      st.division_lists.length := by
  simp [createState]

theorem createState_getDiv_old {st : BuildState} {nodeId id : Nat}
    (hid : id < st.arena.length) (i : Nat) (name : String) (row : Row) :
    getDiv (createState st nodeId i name row).arena id =
      if nodeId = id then
        { getDiv st.arena nodeId with
            children := (getDiv st.arena nodeId).children ++ [st.arena.length] }
      else getDiv st.arena id :=
  getDiv_update_old hid

theorem createState_getDiv_new (st : BuildState) (nodeId i : Nat) (name : String)
    (row : Row) :
    getDiv (createState st nodeId i name row).arena st.arena.length =
      { name := name, path := (getDiv st.arena nodeId).path ++ [name],
        children := [], row := row } :=
  getDiv_update_new

theorem createState_getList {st : BuildState} {i : Nat}
    (hi : i < st.division_lists.length) (nodeId : Nat) (name : String) (row : Row)
    (j : Nat) :
    getList (createState st nodeId i name row).division_lists j =
      if i = j then getList st.division_lists i ++ [st.arena.length]
      else getList st.division_lists j :=
  getList_set hi

/-! ### mapM and stopLen lemmas -/

theorem mapM_some_length {α β : Type} {f : α → Option β} :
    ∀ {l : List α} {ys : List β}, l.mapM f = some ys → ys.length = l.length := by
  intro l
  induction l with
  | nil =>
    intro ys h
    simp only [List.mapM_nil, pure, Option.some.injEq] at h
    rw [← h]
    rfl
  | cons a t ihm =>
    intro ys h
    rw [List.mapM_cons] at h
    cases hfa : f a with
    | none => rw [hfa] at h; exact absurd h (by simp)
    | some b =>
      rw [hfa] at h
      cases hmt : t.mapM f with
      | none => rw [hmt] at h; exact absurd h (by simp)
      | some bs =>
        rw [hmt] at h
        simp at h
        subst h
        simp [ihm hmt]

theorem mapM_eq_map_getD {α β : Type} {f : α → Option β} (d : β) :
    ∀ {l : List α} {ys : List β}, l.mapM f = some ys →
      ys = l.map (fun a => (f a).getD d) := by
  intro l
  induction l with
  | nil =>
    intro ys h
    simp only [List.mapM_nil, pure, Option.some.injEq] at h
    rw [← h]
    rfl
  | cons a t ihm =>
    intro ys h
    rw [List.mapM_cons] at h
    cases hfa : f a with
    | none => rw [hfa] at h; exact absurd h (by simp)
    | some b =>
      rw [hfa] at h
      cases hmt : t.mapM f with
      | none => rw [hmt] at h; exact absurd h (by simp)
      | some bs =>
        rw [hmt] at h
        simp at h
        subst h
        simp [ihm hmt, hfa]

theorem mapM_isSome_of_forall {α β : Type} {f : α → Option β} :
    ∀ {l : List α}, (∀ a ∈ l, (f a).isSome) → ∃ ys, l.mapM f = some ys := by
  intro l
  induction l with
  | nil => intro _; exact ⟨[], rfl⟩
  | cons a t ihm =>
    intro h
    obtain ⟨b, hb⟩ := Option.isSome_iff_exists.mp (h a (List.mem_cons_self a t))
    obtain ⟨bs, hbs⟩ := ihm (fun x hx => h x (List.mem_cons_of_mem a hx))
    refine ⟨b :: bs, ?_⟩
    rw [List.mapM_cons, hb, hbs]
    rfl

theorem stopLen_le {names : List (Option String)} :
    ∀ {m : Nat} {r : Option String}, names[m]? = some r → normalize_name r = "" →
      stopLen names ≤ m := by
  induction names with
  | nil => intro m r h _; simp at h
  | cons a t ihn =>
    intro m r h hr
    cases m with
    | zero =>
      simp only [List.getElem?_cons_zero, Option.some.injEq] at h
      subst h
      simp [stopLen, hr]
    | succ m =>
      simp only [List.getElem?_cons_succ] at h
      unfold stopLen
      by_cases he : normalize_name a = ""
      · simp [he]
      · simp only [he, if_false]
        have := ihn h hr
        omega

/-- The create branch establishes the invariant again: the new division extends
its parent's path, lands in its level's list, and (at non-leaf levels, where
the name was checked against the existing children) keeps sibling names
distinct. -/
theorem createState_spec (levels : List Level) (row : Row) (st : BuildState)
    (nodeId i : Nat) (name : String)
    (hInv : Inv levels st) (hNode : nodeId < st.arena.length)
    (hPath : (getDiv st.arena nodeId).path.length = i)
    (hi : i < levels.length)
    (hnew : i + 1 < levels.length →
      ∀ cid ∈ (getDiv st.arena nodeId).children, (getDiv st.arena cid).name ≠ name) :
    Inv levels (createState st nodeId i name row) ∧
    Preserved st (createState st nodeId i name row) ∧
    (getDiv (createState st nodeId i name row).arena st.arena.length).path.length
      = i + 1 ∧
    (createState st nodeId i name row).arena.length = st.arena.length + 1 := by
  obtain ⟨hDlsLen, ⟨hRoot0, hRootPath⟩, hChild, hLists, hNodup⟩ := hInv
  have hiDls : i < st.division_lists.length := by rw [hDlsLen]; exact hi
  have hAL := createState_arena_length st nodeId i name row
  have hDL := createState_dls_length st nodeId i name row
  have hNew := createState_getDiv_new st nodeId i name row
  have hGL := fun j => createState_getList hiDls nodeId name row j
  have hPres : ∀ id < st.arena.length,
      (getDiv (createState st nodeId i name row).arena id).name
        = (getDiv st.arena id).name ∧
      (getDiv (createState st nodeId i name row).arena id).path
        = (getDiv st.arena id).path ∧
      (getDiv (createState st nodeId i name row).arena id).row
        = (getDiv st.arena id).row := by
    intro id hid
    rw [createState_getDiv_old hid i name row]
    by_cases h : nodeId = id
    · subst h
      rw [if_pos rfl]
      exact ⟨rfl, rfl, rfl⟩
    · rw [if_neg h]
      exact ⟨rfl, rfl, rfl⟩
  have hChildEq : ∀ nid < st.arena.length,
      (getDiv (createState st nodeId i name row).arena nid).children
        = (getDiv st.arena nid).children ++
            (if nodeId = nid then [st.arena.length] else []) := by
    intro nid hnid
    rw [createState_getDiv_old hnid i name row]
    by_cases h : nodeId = nid
    · subst h
      rw [if_pos rfl, if_pos rfl]
    · rw [if_neg h, if_neg h, List.append_nil]
  have hMono : ∀ j, ∀ cid ∈ getList st.division_lists j,
      cid ∈ getList (createState st nodeId i name row).division_lists j := by
    intro j cid hc
    rw [hGL j]
    by_cases h : i = j
    · rw [if_pos h]
      rw [← h] at hc
      exact List.mem_append_left _ hc
    · rw [if_neg h]
      exact hc
  have hNewPathLen :
      (getDiv (createState st nodeId i name row).arena st.arena.length).path.length
        = i + 1 := by
    rw [hNew]
    simp [hPath]
  have hPreserved : Preserved st (createState st nodeId i name row) :=
    ⟨by rw [hAL]; omega, hPres, hMono⟩
  refine ⟨?_, hPreserved, hNewPathLen, hAL⟩
  refine ⟨by rw [hDL, hDlsLen], ⟨by rw [hAL]; omega, ?_⟩, ?_, ?_, ?_⟩
  · -- root path unchanged
    rw [(hPres 0 hRoot0).2.1]
    exact hRootPath
  · -- childrenOk
    intro nid hnid cid hcid
    rcases Nat.lt_or_ge nid st.arena.length with hlt | hge
    · rw [hChildEq nid hlt] at hcid
      rcases List.mem_append.mp hcid with hold | hnewc
      · obtain ⟨hc1, hc2, hc3⟩ := hChild nid hlt cid hold
        refine ⟨by rw [hAL]; omega, ?_, ?_⟩
        · rw [(hPres cid hc1).2.1, (hPres cid hc1).1, (hPres nid hlt).2.1]
          exact hc2
        · rw [(hPres nid hlt).2.1]
          exact hMono _ cid hc3
      · have hEq : nodeId = nid ∧ cid = st.arena.length := by
          by_cases h : nodeId = nid
          · simp [h] at hnewc
            exact ⟨h, hnewc⟩
          · simp [h] at hnewc
        obtain ⟨hEq1, hEq2⟩ := hEq
        subst hEq2
        refine ⟨by rw [hAL]; omega, ?_, ?_⟩
        · rw [hNew, (hPres nid hlt).2.1, ← hEq1]
        · rw [(hPres nid hlt).2.1, ← hEq1, hPath, hGL i, if_pos rfl]
          exact List.mem_append_right _ (List.mem_singleton_self _)
    · -- nid is the new division: no children
      have hnid' : nid = st.arena.length := by
        rw [hAL] at hnid
        omega
      subst hnid'
      rw [hNew] at hcid
      simp at hcid
  · -- listsOk
    intro j hj cid hcid
    have hj' : j < st.division_lists.length := by rw [hDL] at hj; exact hj
    rw [hGL j] at hcid
    by_cases h : i = j
    · subst h
      rw [if_pos rfl] at hcid
      rcases List.mem_append.mp hcid with hold | hnewc
      · obtain ⟨hc1, hc2⟩ := hLists i hiDls cid hold
        exact ⟨by rw [hAL]; omega, by rw [(hPres cid hc1).2.1]; exact hc2⟩
      · have hcid' : cid = st.arena.length := by simpa using hnewc
        subst hcid'
        exact ⟨by rw [hAL]; omega, hNewPathLen⟩
    · rw [if_neg h] at hcid
      obtain ⟨hc1, hc2⟩ := hLists j hj' cid hcid
      exact ⟨by rw [hAL]; omega, by rw [(hPres cid hc1).2.1]; exact hc2⟩
  · -- nodupOk
    intro nid hnid hcond
    rcases Nat.lt_or_ge nid st.arena.length with hlt | hge
    · have hcond' : (getDiv st.arena nid).path.length + 1 < levels.length := by
        rw [(hPres nid hlt).2.1] at hcond
        exact hcond
      have hnames : ∀ c ∈ (getDiv st.arena nid).children,
          (getDiv (createState st nodeId i name row).arena c).name
            = (getDiv st.arena c).name := by
        intro c hc
        exact (hPres c (hChild nid hlt c hc).1).1
      rw [hChildEq nid hlt]
      by_cases h : nodeId = nid
      · subst h
        rw [if_pos rfl, List.map_append]
        rw [List.map_congr_left hnames]
        have hlen1 : (getDiv (createState st nodeId i name row).arena
            st.arena.length).name = name := by rw [hNew]
        simp only [List.map_cons, List.map_nil, hlen1]
        rw [List.nodup_append]
        have hiLt : i + 1 < levels.length := by
          rw [(hPres nodeId hlt).2.1, hPath] at hcond
          exact hcond
        refine ⟨hNodup nodeId hlt (by rw [hPath]; exact hiLt), List.nodup_singleton _, ?_⟩
        intro a ha hb
        have hav : a = name := by simpa using hb
        obtain ⟨c, hc, hcn⟩ := List.mem_map.mp ha
        exact (hnew hiLt c hc) (hav ▸ hcn)
      · rw [if_neg h, List.append_nil, List.map_congr_left hnames]
        exact hNodup nid hlt hcond'
    · have hnid' : nid = st.arena.length := by
        rw [hAL] at hnid
        omega
      subst hnid'
      rw [hNew]
      simp

/-- Main induction on the per-row descent: invariant preservation, field
preservation for existing divisions, and depth bounds for new divisions. -/
theorem insertLoop_spec (levels : List Level) (row : Row) :
    ∀ (rest : List (Option String)) (nodeId i : Nat) (st : BuildState),
      Inv levels st → nodeId < st.arena.length →
      (getDiv st.arena nodeId).path.length = i →
      i + rest.length = levels.length →
      Inv levels (insertLoop levels row nodeId i rest st) ∧
      Preserved st (insertLoop levels row nodeId i rest st) ∧
      NewBound st (insertLoop levels row nodeId i rest st) i (stopLen rest) := by
  intro rest
  induction rest with
  | nil =>
    intro nodeId i st hInv _ _ _
    refine ⟨hInv, Preserved_refl st, ?_⟩
    intro id h1 h2
    rw [insertLoop_nil] at h2
    omega
  | cons rawName rest ih =>
    intro nodeId i st hInv hNode hPath hLen
    by_cases hname : normalize_name rawName = ""
    · rw [insertLoop_cons_stop hname]
      refine ⟨hInv, Preserved_refl st, ?_⟩
      intro id h1 h2
      omega
    · have hstop : stopLen (rawName :: rest) = 1 + stopLen rest := by
        simp [stopLen, hname]
      cases hfind : (if i + 1 = levels.length then none
          else (getDiv st.arena nodeId).children.find?
            (fun c => (getDiv st.arena c).name == normalize_name rawName)) with
      | some cid =>
        rw [insertLoop_cons_found hname hfind]
        have hmem : cid ∈ (getDiv st.arena nodeId).children := by
          by_cases hleaf : i + 1 = levels.length
          · rw [if_pos hleaf] at hfind
            exact absurd hfind (by simp)
          · rw [if_neg hleaf] at hfind
            exact List.mem_of_find?_eq_some hfind
        obtain ⟨hcidLt, hcidPath, _⟩ := hInv.2.2.1 nodeId hNode cid hmem
        have hcidLen : (getDiv st.arena cid).path.length = i + 1 := by
          rw [hcidPath]
          simp [hPath]
        obtain ⟨ih1, ih2, ih3⟩ := ih cid (i + 1) st hInv hcidLt hcidLen
          (by simp at hLen ⊢; omega)
        refine ⟨ih1, ih2, ?_⟩
        rw [hstop]
        intro id h1 h2
        obtain ⟨hb1, hb2⟩ := ih3 id h1 h2
        exact ⟨by omega, by omega⟩
      | none =>
        rw [insertLoop_cons_create hname hfind]
        have hiL : i < levels.length := by simp at hLen; omega
        have hnew : i + 1 < levels.length →
            ∀ cid ∈ (getDiv st.arena nodeId).children,
              (getDiv st.arena cid).name ≠ normalize_name rawName := by
          intro hlt cid hc
          have hne : i + 1 ≠ levels.length := Nat.ne_of_lt hlt
          rw [if_neg hne] at hfind
          have := List.find?_eq_none.mp hfind cid hc
          simpa using this
        obtain ⟨hInv₁, hPres₁, hNewPath, hALen⟩ :=
          createState_spec levels row st nodeId i (normalize_name rawName)
            hInv hNode hPath hiL hnew
        obtain ⟨ih1, ih2, ih3⟩ := ih st.arena.length (i + 1)
          (createState st nodeId i (normalize_name rawName) row) hInv₁
          (by rw [hALen]; omega) hNewPath (by simp at hLen ⊢; omega)
        refine ⟨ih1, Preserved_trans hPres₁ ih2, ?_⟩
        rw [hstop]
        intro id h1 h2
        by_cases hid : id = st.arena.length
        · subst hid
          obtain ⟨_, hp, _⟩ := ih2.2.1 st.arena.length (by rw [hALen]; omega)
          have hlen' :
              (getDiv (insertLoop levels row st.arena.length (i + 1) rest
                (createState st nodeId i (normalize_name rawName) row)).arena
                st.arena.length).path.length = i + 1 := by
            rw [hp]
            exact hNewPath
          exact ⟨by omega, by omega⟩
        · have h1' : (createState st nodeId i (normalize_name rawName)
              row).arena.length ≤ id := by
            rw [hALen]
            omega
          obtain ⟨hb1, hb2⟩ := ih3 id h1' h2
          exact ⟨by omega, by omega⟩

/-- One row of the builder preserves the invariant and the existing divisions. -/
theorem processRow_spec {levels : List Level} {st st' : BuildState} {row : Row}
    (hInv : Inv levels st) (h : processRow levels st row = some st') :
    Inv levels st' ∧ Preserved st st' := by
  unfold processRow at h
  cases hm : levels.mapM (fun l => row.lookup l.key) with
  | none =>
    rw [hm] at h
    exact absurd h (by simp)
  | some vals =>
    rw [hm] at h
    simp only [Option.some.injEq] at h
    subst h
    have hlen : vals.length = levels.length := mapM_some_length hm
    have hroot0 : 0 < st.arena.length := hInv.2.1.1
    have hrootpath : (getDiv st.arena 0).path.length = 0 := by
      rw [hInv.2.1.2]
      rfl
    obtain ⟨i1, i2, _⟩ := insertLoop_spec levels row (vals.map stripOrNone) 0 0 st
      hInv hroot0 hrootpath (by simp [hlen])
    exact ⟨i1, i2⟩

/-- Folding the builder over any row list preserves the invariant. -/
theorem foldl_inv {levels : List Level} :
    ∀ (rows : List Row) (st0 st : BuildState), Inv levels st0 →
      rows.foldlM (fun st row => processRow levels st row) st0 = some st →
      Inv levels st := by
  intro rows
  induction rows with
  | nil =>
    intro st0 st h0 h
    rw [List.foldlM_nil] at h
    simp only [pure, Option.some.injEq] at h
    rw [← h]
    exact h0
  | cons r rs ihr =>
    intro st0 st h0 h
    rw [List.foldlM_cons] at h
    cases hp : processRow levels st0 r with
    | none =>
      rw [hp] at h
      exact absurd h (by simp)
    | some st1 =>
      rw [hp] at h
      exact ihr st1 st (processRow_spec h0 hp).1 h

/-- Every state produced by `read_divisions` from a fresh root satisfies the
invariant. -/
theorem read_divisions_inv {levels : List Level} {rows : List Row} {st : BuildState}
    (h : read_divisions levels rows = some st) : Inv levels st :=
  foldl_inv rows _ st (Inv_fresh levels) h

/-! ### The rank index as a stack of per-level blocks -/

/-- The index entries written while numbering `ds` from position `j`: most
recent write first (Python dict semantics). -/
def blockFrom (arena : List Division) : List Nat → Nat → Index
  | [], _ => []
  | d :: ds, j => blockFrom arena ds (j + 1) ++ [((getDiv arena d).path, j + 1)]

theorem numberLevel_eq_blockFrom (arena : List Division) :
    ∀ (ds : List Nat) (j : Nat) (idx : Index),
      numberLevel arena ds j idx = blockFrom arena ds j ++ idx := by
  intro ds
  induction ds with
  | nil => intro j idx; rfl
  | cons d t ihd =>
    intro j idx
    show numberLevel arena t (j + 1) (((getDiv arena d).path, j + 1) :: idx) = _
    rw [ihd]
    simp [blockFrom]

theorem lookup_singleton_some {α β : Type} [BEq α] [LawfulBEq α] {p k : α} {v r : β}
    (h : List.lookup p [(k, v)] = some r) : p = k ∧ r = v := by
  have := lookup_mem_of_eq_some h
  simpa using this

theorem lookup_append_isSome_left {α β : Type} [BEq α] [LawfulBEq α]
    {l₁ l₂ : List (α × β)} {k : α} (h : (List.lookup k l₁).isSome) :
    (List.lookup k (l₁ ++ l₂)).isSome := by
  obtain ⟨v, hv⟩ := Option.isSome_iff_exists.mp h
  rw [lookup_append_some hv]
  rfl

theorem lookup_append_isSome_right {α β : Type} [BEq α] [LawfulBEq α]
    {l₁ l₂ : List (α × β)} {k : α} (h : (List.lookup k l₂).isSome) :
    (List.lookup k (l₁ ++ l₂)).isSome := by
  cases hl : List.lookup k l₁ with
  | some v => rw [lookup_append_some hl]; rfl
  | none => rw [lookup_append_none hl]; exact h

/-- Any rank found in a block comes from an actual position of the sorted list. -/
theorem blockFrom_lookup_some (arena : List Division) :
    ∀ (ds : List Nat) (j : Nat) {p : List String} {r : Nat},
      List.lookup p (blockFrom arena ds j) = some r →
      ∃ m, ∃ (hm : m < ds.length), (getDiv arena ds[m]).path = p ∧ r = j + m + 1 := by
  intro ds
  induction ds with
  | nil => intro j p r h; simp [blockFrom, List.lookup] at h
  | cons d t ihd =>
    intro j p r h
    rw [show blockFrom arena (d :: t) j
        = blockFrom arena t (j + 1) ++ [((getDiv arena d).path, j + 1)] from rfl] at h
    cases hl : List.lookup p (blockFrom arena t (j + 1)) with
    | some r' =>
      rw [lookup_append_some hl] at h
      obtain ⟨m, hm, hp, hr⟩ := ihd (j + 1) hl
      refine ⟨m + 1, by simpa using Nat.succ_lt_succ hm, ?_, ?_⟩
      · simpa using hp
      · simp only [Option.some.injEq] at h
        omega
    | none =>
      rw [lookup_append_none hl] at h
      obtain ⟨hp, hr⟩ := lookup_singleton_some h
      exact ⟨0, by simp, by simp [hp], by omega⟩

/-- Every listed path has a rank in its block. -/
theorem blockFrom_lookup_isSome (arena : List Division) :
    ∀ (ds : List Nat) (j : Nat) {p : List String} {m : Nat} (hm : m < ds.length),
      (getDiv arena ds[m]).path = p →
      (List.lookup p (blockFrom arena ds j)).isSome := by
  intro ds
  induction ds with
  | nil => intro j p m hm; simp at hm
  | cons d t ihd =>
    intro j p m hm hp
    rw [show blockFrom arena (d :: t) j
        = blockFrom arena t (j + 1) ++ [((getDiv arena d).path, j + 1)] from rfl]
    cases m with
    | zero =>
      refine lookup_append_isSome_right ?_
      simp only [List.getElem_cons_zero] at hp
      rw [List.lookup_cons]
      rw [show (p == (getDiv arena d).path) = true from beq_iff_eq.mpr hp.symm]
      rfl
    | succ m =>
      simp only [List.getElem_cons_succ] at hp
      exact lookup_append_isSome_left (ihd (j + 1) (Nat.lt_of_succ_lt_succ hm) hp)

/-- Keys present in a block are paths of listed divisions. -/
theorem blockFrom_key_mem (arena : List Division) :
    ∀ (ds : List Nat) (j : Nat) {kv : List String × Nat},
      kv ∈ blockFrom arena ds j →
      ∃ m, ∃ (hm : m < ds.length), kv.1 = (getDiv arena ds[m]).path := by
  intro ds
  induction ds with
  | nil => intro j kv h; simp [blockFrom] at h
  | cons d t ihd =>
    intro j kv h
    rw [show blockFrom arena (d :: t) j
        = blockFrom arena t (j + 1) ++ [((getDiv arena d).path, j + 1)] from rfl] at h
    rcases List.mem_append.mp h with h1 | h1
    · obtain ⟨m, hm, hk⟩ := ihd (j + 1) h1
      exact ⟨m + 1, by simpa using Nat.succ_lt_succ hm, by simpa using hk⟩
    · have : kv = ((getDiv arena d).path, j + 1) := by simpa using h1
      exact ⟨0, by simp, by simp [this]⟩

/-- With pairwise distinct paths, position `m` gets exactly rank `j + m + 1`. -/
theorem blockFrom_lookup_nodup (arena : List Division) :
    ∀ (ds : List Nat) (j : Nat) {m : Nat} (hm : m < ds.length),
      (ds.map (fun d => (getDiv arena d).path)).Nodup →
      List.lookup ((getDiv arena ds[m]).path) (blockFrom arena ds j)
        = some (j + m + 1) := by
  intro ds
  induction ds with
  | nil => intro j m hm; simp at hm
  | cons d t ihd =>
    intro j m hm hnd
    rw [show blockFrom arena (d :: t) j
        = blockFrom arena t (j + 1) ++ [((getDiv arena d).path, j + 1)] from rfl]
    simp only [List.map_cons, List.nodup_cons] at hnd
    obtain ⟨hhead, htail⟩ := hnd
    cases m with
    | zero =>
      simp only [List.getElem_cons_zero]
      have hnone : List.lookup ((getDiv arena d).path)
          (blockFrom arena t (j + 1)) = none := by
        refine lookup_eq_none_of_keys_ne ?_
        intro kv hkv he
        obtain ⟨m', hm', hk⟩ := blockFrom_key_mem arena t (j + 1) hkv
        exact hhead (List.mem_map.mpr ⟨t[m'], List.getElem_mem hm', hk.symm.trans he⟩)
      rw [lookup_append_none hnone, List.lookup_cons]
      rw [show ((getDiv arena d).path == (getDiv arena d).path) = true from
        beq_iff_eq.mpr rfl]
    | succ m =>
      simp only [List.getElem_cons_succ]
      have := ihd (j + 1) (Nat.lt_of_succ_lt_succ hm) htail
      rw [lookup_append_some this]
      exact congrArg some (by omega)

/-- The final rank index, as the concatenation of the per-level blocks,
with the later (deeper) levels first. -/
def stackBlocks (arena : List Division) : List (List Nat) → Index
  | [] => []
  | ds :: rest => stackBlocks arena rest ++ blockFrom arena (sort_divisions arena ds) 0

theorem aux_fst (arena : List Division) :
    ∀ (dls : List (List Nat)) (idx : Index),
      (sort_and_number_aux arena dls idx).1 = dls.map (sort_divisions arena) := by
  intro dls
  induction dls with
  | nil => intro idx; rfl
  | cons ds rest ihd =>
    intro idx
    show (sort_divisions arena ds) :: (sort_and_number_aux arena rest _).1 = _
    rw [ihd]
    rfl

theorem aux_snd (arena : List Division) :
    ∀ (dls : List (List Nat)) (idx : Index),
      (sort_and_number_aux arena dls idx).2 = stackBlocks arena dls ++ idx := by
  intro dls
  induction dls with
  | nil => intro idx; rfl
  | cons ds rest ihd =>
    intro idx
    show (sort_and_number_aux arena rest
      (numberLevel arena (sort_divisions arena ds) 0 idx)).2 = _
    rw [ihd, numberLevel_eq_blockFrom]
    rw [show stackBlocks arena (ds :: rest)
      = stackBlocks arena rest ++ blockFrom arena (sort_divisions arena ds) 0 from rfl]
    rw [List.append_assoc]

theorem sort_and_number_fst (arena : List Division) (dls : List (List Nat)) :
    (sort_and_number_divisions arena dls).1 = dls.map (sort_divisions arena) :=
  aux_fst arena dls []

theorem sort_and_number_snd (arena : List Division) (dls : List (List Nat)) :
    (sort_and_number_divisions arena dls).2 = stackBlocks arena dls := by
  rw [show sort_and_number_divisions arena dls = sort_and_number_aux arena dls []
    from rfl, aux_snd, List.append_nil]

/-- Keys of the stacked index come from a listed division of some level. -/
theorem stackBlocks_key (arena : List Division) :
    ∀ (dls : List (List Nat)) {kv : List String × Nat}, kv ∈ stackBlocks arena dls →
      ∃ i, ∃ (hi : i < dls.length), ∃ d ∈ dls[i], kv.1 = (getDiv arena d).path := by
  intro dls
  induction dls with
  | nil => intro kv h; simp [stackBlocks] at h
  | cons ds rest ihd =>
    intro kv h
    rw [show stackBlocks arena (ds :: rest)
      = stackBlocks arena rest ++ blockFrom arena (sort_divisions arena ds) 0
      from rfl] at h
    rcases List.mem_append.mp h with h1 | h1
    · obtain ⟨i, hi, d, hd, hk⟩ := ihd h1
      exact ⟨i + 1, by simpa using Nat.succ_lt_succ hi, d, by simpa using hd, hk⟩
    · obtain ⟨m, hm, hk⟩ := blockFrom_key_mem arena _ 0 h1
      refine ⟨0, by simp, (sort_divisions arena ds)[m], ?_, hk⟩
      have : (sort_divisions arena ds)[m] ∈ sort_divisions arena ds :=
        List.getElem_mem hm
      simpa using (List.mem_insertionSort (divLE arena)).mp this

/-- Every division listed at any level has a rank in the stacked index. -/
theorem stackBlocks_lookup_isSome (arena : List Division) :
    ∀ (dls : List (List Nat)) (i : Nat) (hi : i < dls.length) {d : Nat},
      d ∈ dls[i] →
      (List.lookup ((getDiv arena d).path) (stackBlocks arena dls)).isSome := by
  intro dls
  induction dls with
  | nil => intro i hi; simp at hi
  | cons ds rest ihd =>
    intro i hi d hd
    rw [show stackBlocks arena (ds :: rest)
      = stackBlocks arena rest ++ blockFrom arena (sort_divisions arena ds) 0
      from rfl]
    cases i with
    | zero =>
      simp only [List.getElem_cons_zero] at hd
      have hs : d ∈ sort_divisions arena ds :=
        (List.mem_insertionSort (divLE arena)).mpr hd
      obtain ⟨m, hm, he⟩ := List.mem_iff_getElem.mp hs
      exact lookup_append_isSome_right
        (blockFrom_lookup_isSome arena _ 0 hm (by rw [he]))
    | succ i =>
      simp only [List.getElem_cons_succ] at hd
      exact lookup_append_isSome_left (ihd i (Nat.lt_of_succ_lt_succ hi) hd)

/-- When path lengths are level-determined (offset by `off` to allow the
induction to descend a level), a level-`i` path can only be ranked by level
`i`'s own block. -/
theorem stackBlocks_lookup_isolate (arena : List Division) :
    ∀ (dls : List (List Nat)) (off : Nat),
      (∀ i' (hi' : i' < dls.length), ∀ cid ∈ dls[i'],
        (getDiv arena cid).path.length = i' + 1 + off) →
      ∀ (i : Nat) (hi : i < dls.length) (p : List String), p.length = i + 1 + off →
      List.lookup p (stackBlocks arena dls)
        = List.lookup p (blockFrom arena (sort_divisions arena dls[i]) 0) := by
  intro dls
  induction dls with
  | nil => intro _ _ i hi; simp at hi
  | cons ds rest ihd =>
    intro off hlen i hi p hp
    rw [show stackBlocks arena (ds :: rest)
      = stackBlocks arena rest ++ blockFrom arena (sort_divisions arena ds) 0
      from rfl]
    have hlenRest : ∀ i' (hi' : i' < rest.length), ∀ cid ∈ rest[i'],
        (getDiv arena cid).path.length = i' + 1 + (off + 1) := by
      intro i' hi' cid hcid
      have := hlen (i' + 1) (by simpa using Nat.succ_lt_succ hi') cid
        (by simpa using hcid)
      omega
    cases i with
    | zero =>
      have hnone : List.lookup p (stackBlocks arena rest) = none := by
        refine lookup_eq_none_of_keys_ne ?_
        intro kv hkv he
        obtain ⟨i', hi', d, hd, hk⟩ := stackBlocks_key arena rest hkv
        have : kv.1.length = i' + 1 + (off + 1) := hk ▸ hlenRest i' hi' d hd
        rw [he, hp] at this
        omega
      rw [lookup_append_none hnone]
      simp only [List.getElem_cons_zero]
    | succ i =>
      simp only [List.getElem_cons_succ]
      have hiR : i < rest.length := Nat.lt_of_succ_lt_succ hi
      have hIso := ihd (off + 1) hlenRest i hiR p (by omega)
      cases hl : List.lookup p (stackBlocks arena rest) with
      | some r =>
        rw [lookup_append_some hl, ← hl, hIso]
      | none =>
        rw [lookup_append_none hl]
        rw [hl] at hIso
        rw [← hIso]
        refine lookup_eq_none_of_keys_ne ?_
        intro kv hkv he
        obtain ⟨m, hm, hk⟩ := blockFrom_key_mem arena _ 0 hkv
        have hmem : (sort_divisions arena ds)[m] ∈ ds := by
          have : (sort_divisions arena ds)[m] ∈ sort_divisions arena ds :=
            List.getElem_mem hm
          simpa using (List.mem_insertionSort (divLE arena)).mp this
        have : kv.1.length = 0 + 1 + off := hk ▸ hlen 0 (by simp) _ (by simpa using hmem)
        rw [he, hp] at this
        omega

/-! ### Common comparison lemmas for the claims -/

theorem keyLe_append_common : ∀ (k a b : List String),
    keyLe (k ++ a) (k ++ b) = keyLe a b := by
  intro k
  induction k with
  | nil => intro a b; rfl
  | cons c t ihk =>
    intro a b
    show (if strLt c c then true else if strLt c c then false
      else keyLe (t ++ a) (t ++ b)) = keyLe a b
    rw [strLt_irrefl]
    simp [ihk]

theorem find?_append_of_none {α : Type} {p : α → Bool} :
    ∀ {l₁ l₂ : List α}, l₁.find? p = none → (l₁ ++ l₂).find? p = l₂.find? p := by
  intro l₁
  induction l₁ with
  | nil => intro l₂ _; rfl
  | cons a t iha =>
    intro l₂ h
    rw [List.find?_cons] at h
    cases hp : p a with
    | true => rw [hp] at h; exact absurd h (by simp)
    | false =>
      rw [hp] at h
      rw [List.cons_append, List.find?_cons, hp]
      exact iha h

/-! ### Claim C9: the GeoJSON name backfiller -/

/-- C9: for a feature whose properties lack a truthy `name`, the backfiller
sets `name` to the value of the highest-priority present-and-truthy fallback
key, where priority increases along `name_keys` (so `name` beats `Name` beats
`NAME` beats the admin-level keys, finest first): if `name_keys` splits as
`l1 ++ k :: l2` with nothing truthy in the higher-priority suffix `l2`, and
`k` holds the truthy value `v`, the output property mapping maps `name`
to `v`. -/
theorem c9_backfill_highest_priority (props : Row) (l1 l2 : List String)
    (k v : String)
    (hsplit : name_keys = l1 ++ k :: l2)
    (hk : props.lookup k = some v) (hv : v ≠ "")
    (hname : truthy (props.lookup "name") = false)
    (hl2 : ∀ k' ∈ l2, truthy (props.lookup k') = false) :
    ∃ props', add_name (some props) = some props' ∧
      props'.lookup "name" = some v := by
  have hne : props ≠ [] := by
    intro he
    rw [he] at hk
    simp [List.lookup] at hk
  have htr : truthy (props.lookup k) = true := by
    rw [hk]
    simpa [truthy] using hv
  have hrev : name_keys.reverse = l2.reverse ++ k :: l1.reverse := by
    rw [hsplit, List.reverse_append, List.reverse_cons, List.append_assoc]
    rfl
  have hfindl2 : (l2.reverse).find? (fun k' => truthy (props.lookup k')) = none := by
    rw [List.find?_eq_none]
    intro x hx
    rw [hl2 x (List.mem_reverse.mp hx)]
    simp
  have htr' : (fun k' => truthy (List.lookup k' props)) k = true := htr
  have hfind : name_keys.reverse.find? (fun k' => truthy (props.lookup k'))
      = some k := by
    rw [hrev, find?_append_of_none hfindl2]
    exact List.find?_cons_of_pos _ htr'
  refine ⟨rowSet props "name" ((props.lookup k).getD ""), ?_, ?_⟩
  · show (if props ≠ [] ∧ truthy (List.lookup "name" props) = false then
        match name_keys.reverse.find? (fun k => truthy (List.lookup k props)) with
        | some k => some (rowSet props "name" ((List.lookup k props).getD ""))
        | none => some props
      else some props) = some (rowSet props "name" ((List.lookup k props).getD ""))
    rw [if_pos (And.intro hne hname), hfind]
  · rw [hk]
    show List.lookup "name" (("name", v) :: props) = some v
    rw [List.lookup_cons]
    rw [show (("name" : String) == "name") = true from beq_iff_eq.mpr rfl]

def propsC9 : Row := [("admin2Name", "X"), ("Name", "Y")]

def nameKeysBeforeName : List String :=
  ["ADM0_NAME", "admin0Name", "ADM1_NAME", "admin1Name", "ADM2_NAME",
   "admin2Name", "ADM3_NAME", "admin3Name", "ADM4_NAME", "admin4Name",
   "ADM5_NAME", "admin5Name", "NAME"]

/-- C9 witness: `admin2Name = "X"`, `Name = "Y"`, no `name`: the backfilled
`name` is `"Y"` (the higher-priority `Name` wins over `admin2Name`). -/
theorem c9_backfill_witness :
    (name_keys = nameKeysBeforeName ++ "Name" :: ["name"] ∧
     propsC9.lookup "Name" = some "Y" ∧ ("Y" : String) ≠ "" ∧
     truthy (propsC9.lookup "name") = false ∧
     (∀ k' ∈ ["name"], truthy (propsC9.lookup k') = false)) ∧
    (∃ props', add_name (some propsC9) = some props' ∧
      props'.lookup "name" = some "Y") :=
  ⟨⟨by decide, by decide, by decide, by decide, by decide⟩,
   c9_backfill_highest_priority propsC9 nameKeysBeforeName ["name"] "Name" "Y"
     (by decide) (by decide) (by decide) (by decide) (by decide)⟩

/-! ### Claim C6: the (other) catch-all and its sort position -/

/-- C6 (amended): a cell whose stripped value is literally `OTHER` normalizes
to the display name `(other)`, and under the site-specific ordering rule
such a division sorts strictly after every sibling whose name is neither
`(other)` nor `OTHER` and compares strictly below the sentinel `~` — names
at or above the tilde sentinel (which the counterexample exhibits) are the
only exception. -/
theorem c6_other_sorts_after (s : String) (hs : pyStrip s = "OTHER")
    (pp : List String) (n : String) (h1 : n ≠ "OTHER") (h2 : n ≠ "(other)")
    (h3 : strLt n "~" = true) :
    normalize_name (some s) = "(other)" ∧
    keyLt (sortKey (pp ++ [n])) (sortKey (pp ++ ["(other)"])) = true := by
  constructor
  · unfold normalize_name
    rw [show (some s).getD "" = s from rfl, if_pos hs]
  · rw [keyLt_eq_true_iff]
    have hsn : sortKey (pp ++ [n]) = sortKey pp ++ [n] := by
      unfold sortKey
      rw [List.map_append]
      simp [h1, h2]
    have hso : sortKey (pp ++ ["(other)"]) = sortKey pp ++ ["~"] := by
      unfold sortKey
      rw [List.map_append]
      simp
    rw [hsn, hso, keyLe_append_common]
    show (if strLt "~" n then true else if strLt n "~" then false
      else keyLe [] []) = false
    rw [strLt_asymm h3]
    simp [h3]

/-- C6 witness: a village literally named ` OTHER ` becomes `(other)` and
sorts after an ordinary sibling `B` of the same parent `A`. -/
theorem c6_other_sorts_after_witness :
    (pyStrip " OTHER " = "OTHER" ∧ ("B" : String) ≠ "OTHER" ∧
     ("B" : String) ≠ "(other)" ∧ strLt "B" "~" = true) ∧
    (normalize_name (some " OTHER ") = "(other)" ∧
     keyLt (sortKey (["A"] ++ ["B"])) (sortKey (["A"] ++ ["(other)"])) = true) :=
  ⟨⟨by decide, by decide, by decide, by decide⟩,
   c6_other_sorts_after " OTHER " (by decide) ["A"] "B" (by decide) (by decide)
     (by decide)⟩

def arenaC6 : List Division :=
  [ { name := "", path := [], children := [1, 2], row := [] },
    { name := "(other)", path := ["(other)"], children := [], row := [] },
    { name := "~x", path := ["~x"], children := [], row := [] } ]

/-- C6 counterexample: the claim as stated says a division named `(other)`
sorts after every sibling whose name is not `(other)`; but the sort key maps
`(other)` to `~`, so the sibling named `~x` (not `(other)`, and a name the
normalizer leaves untouched) sorts after `(other)` in both input orders. -/
theorem c6_counterexample :
    normalize_name (some "OTHER") = "(other)" ∧
    normalize_name (some "~x") = "~x" ∧
    ("~x" : String) ≠ "(other)" ∧
    (getDiv arenaC6 1).name = "(other)" ∧ (getDiv arenaC6 2).name = "~x" ∧
    sort_divisions arenaC6 [1, 2] = [1, 2] ∧
    sort_divisions arenaC6 [2, 1] = [1, 2] := by decide

/-! ### Claim C3: missing optional per-leaf columns -/

/-- C3 (amended): a leaf row missing the alternate-name, historical-name and
chief-name columns still renders, with empty cells derived for them — but
only because `fix_up_division` writes `VILLAGE_OTHER_NAMES` and `CHIEF_NAME`
back into the row; the meaning-of-name column is read directly by the leaf
template and must be present (the counterexample shows its absence raising a
key lookup error). -/
theorem c3_missing_optional_columns (d : Division) (vn vm : String)
    (hvn : d.row.lookup "VILLAGE_NAME" = some vn)
    (hvm : d.row.lookup "VILLAGE_NAME_MEANING" = some vm)
    (ha : d.row.lookup "ALT_VILLAGE_NAME" = none)
    (hh : d.row.lookup "HISTORICAL_NAME" = none)
    (hc : d.row.lookup "CHIEF_NAME" = none) :
    render_leaf_row d = some [vn, "", "", vm] := by
  have hocell : other_names_cell d.row = "" := by
    unfold other_names_cell
    rw [ha, hh]
    rfl
  have hlc : List.lookup "CHIEF_NAME"
      (rowSet d.row "VILLAGE_OTHER_NAMES" (other_names_cell d.row)) = none := by
    show List.lookup "CHIEF_NAME"
      (("VILLAGE_OTHER_NAMES", other_names_cell d.row) :: d.row) = none
    rw [List.lookup_cons,
      show (("CHIEF_NAME" : String) == "VILLAGE_OTHER_NAMES") = false from by decide]
    exact hc
  have hccell : chief_cell
      (rowSet d.row "VILLAGE_OTHER_NAMES" (other_names_cell d.row)) = "" := by
    unfold chief_cell
    rw [hlc]
    rfl
  have hrow : (fix_up_division d).row
      = ("CHIEF_NAME", "") :: ("VILLAGE_OTHER_NAMES", "") :: d.row := by
    show ("CHIEF_NAME", chief_cell (rowSet d.row "VILLAGE_OTHER_NAMES"
        (other_names_cell d.row)))
      :: ("VILLAGE_OTHER_NAMES", other_names_cell d.row) :: d.row
      = ("CHIEF_NAME", "") :: ("VILLAGE_OTHER_NAMES", "") :: d.row
    rw [hccell, hocell]
  unfold render_leaf_row render_leaf_item
  rw [hrow]
  rw [List.lookup_cons, List.lookup_cons, List.lookup_cons, List.lookup_cons,
    List.lookup_cons, List.lookup_cons, List.lookup_cons, List.lookup_cons]
  rw [show (("VILLAGE_NAME" : String) == "CHIEF_NAME") = false from by decide,
    show (("VILLAGE_NAME" : String) == "VILLAGE_OTHER_NAMES") = false from by decide,
    show (("VILLAGE_OTHER_NAMES" : String) == "CHIEF_NAME") = false from by decide,
    show (("VILLAGE_OTHER_NAMES" : String) == "VILLAGE_OTHER_NAMES") = true from by decide,
    show (("CHIEF_NAME" : String) == "CHIEF_NAME") = true from by decide,
    show (("VILLAGE_NAME_MEANING" : String) == "CHIEF_NAME") = false from by decide,
    show (("VILLAGE_NAME_MEANING" : String) == "VILLAGE_OTHER_NAMES") = false from by decide]
  rw [hvn, hvm]

/-- C3 witness: a leaf row with only the village name and the meaning column
renders with empty alternate-names and chief cells. -/
theorem c3_missing_optional_columns_witness :
    (([("VILLAGE_NAME", "v1"), ("VILLAGE_NAME_MEANING", "m")] : Row).lookup
        "VILLAGE_NAME" = some "v1" ∧
     ([("VILLAGE_NAME", "v1"), ("VILLAGE_NAME_MEANING", "m")] : Row).lookup
        "ALT_VILLAGE_NAME" = none) ∧
    render_leaf_row
      ⟨"v1", ["A", "X", "P", "v1"], [],
        [("VILLAGE_NAME", "v1"), ("VILLAGE_NAME_MEANING", "m")]⟩
      = some ["v1", "", "", "m"] :=
  ⟨⟨by decide, by decide⟩,
   c3_missing_optional_columns _ "v1" "m" (by decide) (by decide) (by decide)
     (by decide) (by decide)⟩

/-- C3 counterexample: a leaf row lacking every optional column — alternate
name, historical name, chief name and meaning-of-name — does not render: the
leaf template's direct `row[VILLAGE_NAME_MEANING]` lookup fails, contradicting
the claim that each missing optional column merely yields an empty cell. -/
theorem c3_counterexample :
    (([("VILLAGE_NAME", "v1")] : Row).lookup "ALT_VILLAGE_NAME" = none ∧
     ([("VILLAGE_NAME", "v1")] : Row).lookup "HISTORICAL_NAME" = none ∧
     ([("VILLAGE_NAME", "v1")] : Row).lookup "CHIEF_NAME" = none ∧
     ([("VILLAGE_NAME", "v1")] : Row).lookup "VILLAGE_NAME_MEANING" = none) ∧
    render_leaf_row ⟨"v1", ["A", "X", "P", "v1"], [], [("VILLAGE_NAME", "v1")]⟩
      = none := by decide

/-! ### Claims C1 and C2: concrete pipeline runs -/

/-- The CSV row `(D=A, C=X, S=P, V=v1)`. -/
def rowA : Row :=
  [("loc_adm1", "A"), ("loc_adm2", "X"), ("loc_adm3", "P"), ("VILLAGE_NAME", "v1")]

/-- Two identical copies of `rowA`. -/
def rowsC1 : List Row := [rowA, rowA]

/-- Placeholder output used only as a `getD` default. -/
def noOut : BuildState × (List (List Nat) × Index) := ⟨⟨[], []⟩, ([], [])⟩

/-- The builder pipeline on the duplicated row, from a fresh process state. -/
def c1_run : BuildState × (List (List Nat) × Index) :=
  (run_builder DEFAULT_LEVELS freshArena rowsC1).getD noOut

/-- C1 (amended): the duplicated CSV row yields two distinct leaf divisions
(arena ids 4 and 5), both named `v1`, both children of the same Section `P`
(id 3), each holding the source row and sharing the same path; both appear as
items on Section P's page, but the rank index is keyed by path, so the shared
path is mapped to the single rank 2 and both items carry that same number
rather than distinct ones. -/
theorem c1_duplicate_leaves :
    (run_builder DEFAULT_LEVELS freshArena rowsC1).isSome ∧
    (getDiv c1_run.1.arena 3).name = "P" ∧
    (getDiv c1_run.1.arena 3).path = ["A", "X", "P"] ∧
    (getDiv c1_run.1.arena 3).children = [4, 5] ∧
    (getDiv c1_run.1.arena 4).name = "v1" ∧
    (getDiv c1_run.1.arena 5).name = "v1" ∧
    (getDiv c1_run.1.arena 4).path = ["A", "X", "P", "v1"] ∧
    (getDiv c1_run.1.arena 5).path = ["A", "X", "P", "v1"] ∧
    (getDiv c1_run.1.arena 4).row = rowA ∧
    (getDiv c1_run.1.arena 5).row = rowA ∧
    indexLookup c1_run.2.2 ["A", "X", "P", "v1"] = some 2 ∧
    write_gazetteer_pages c1_run.1.arena c1_run.2.1 c1_run.2.2 =
      [⟨0, 1, some 1, [(2, some 1)]⟩,
       ⟨1, 2, some 1, [(3, some 1)]⟩,
       ⟨2, 3, some 1, [(4, some 2), (5, some 2)]⟩] := by
  decide

/-- C1 counterexample: the claim says the two duplicate leaf divisions are
numbered distinctly by the rank index, but the index maps their common path
to the single rank 2, so both of Section P's items are numbered 2. -/
theorem c1_counterexample :
    (getDiv c1_run.1.arena 3).children = [4, 5] ∧
    (getDiv c1_run.1.arena 4).name = "v1" ∧
    (getDiv c1_run.1.arena 5).name = "v1" ∧
    indexLookup c1_run.2.2 (getDiv c1_run.1.arena 4).path = some 2 ∧
    indexLookup c1_run.2.2 (getDiv c1_run.1.arena 5).path = some 2 := by
  decide

/-- First builder run on `[rowA]` from a fresh process state. -/
def c2_run1 : BuildState × (List (List Nat) × Index) :=
  (run_builder DEFAULT_LEVELS freshArena [rowA]).getD noOut

/-- Second builder run on the same rows, but on the heap the first run left
behind the module-global `ROOT` (same process, `ROOT.children` persists). -/
def c2_run2 : BuildState × (List (List Nat) × Index) :=
  (run_builder DEFAULT_LEVELS c2_run1.1.arena [rowA]).getD noOut

/-- C2 counterexample: running the builder twice in the same process on the
same records does not reproduce the first run's paths and ranks: `ROOT` is a
module global, so the second `read_divisions` finds every non-leaf name
already present, appends nothing to the non-leaf division lists, and its rank
index loses every non-leaf entry (while a fresh duplicate leaf is created). -/
theorem c2_counterexample :
    (run_builder DEFAULT_LEVELS freshArena [rowA]).isSome ∧
    (run_builder DEFAULT_LEVELS c2_run1.1.arena [rowA]).isSome ∧
    (getList c2_run1.2.1 0).map (fun d => (getDiv c2_run1.1.arena d).path)
      = [["A"]] ∧
    (getList c2_run2.2.1 0).map (fun d => (getDiv c2_run2.1.arena d).path)
      = [] ∧
    indexLookup c2_run1.2.2 ["A"] = some 1 ∧
    indexLookup c2_run2.2.2 ["A"] = none := by
  decide

/-- C2 (amended): the builder's output depends only on the input records and
the schema provided each run starts from the fresh heap of a fresh process:
two such runs produce identical per-level path lists and identical rank
indexes. (Within one process the global `ROOT` persists and the
counterexample applies.) -/
theorem c2_fresh_runs_agree (levels : List Level) (rows : List Row)
    (out1 out2 : BuildState × (List (List Nat) × Index))
    (h1 : run_builder levels freshArena rows = some out1)
    (h2 : run_builder levels freshArena rows = some out2) :
    (∀ i, (getList out1.2.1 i).map (fun d => (getDiv out1.1.arena d).path)
        = (getList out2.2.1 i).map (fun d => (getDiv out2.1.arena d).path)) ∧
    out1.2.2 = out2.2.2 := by
  rw [h1] at h2
  injection h2 with h
  subst h
  exact ⟨fun _ => rfl, rfl⟩

/-- C2 witness: two fresh-process runs on `[rowA]` agree. -/
theorem c2_fresh_runs_agree_witness :
    (run_builder DEFAULT_LEVELS freshArena [rowA] = some c2_run1) ∧
    ((∀ i, (getList c2_run1.2.1 i).map (fun d => (getDiv c2_run1.1.arena d).path)
        = (getList c2_run1.2.1 i).map (fun d => (getDiv c2_run1.1.arena d).path)) ∧
     c2_run1.2.2 = c2_run1.2.2) :=
  ⟨by decide,
   c2_fresh_runs_agree DEFAULT_LEVELS [rowA] c2_run1 c2_run1 (by decide) (by decide)⟩

/-! ### Claim C7: rows that stop contributing at some level -/

/-- C7 (amended): if every level column is present in the row, a row whose
value at level `i + 1` normalizes to empty (while level `i` carries a name)
is processed without error and creates divisions only at levels up to and
including `i` (new divisions have paths of length at most `i + 1`). A row
whose level column is entirely absent instead raises a key-lookup error
(see the counterexample). -/
theorem c7_descent_stops (levels : List Level) (st : BuildState) (row : Row)
    (i : Nat) (lvlI lvlNext : Level)
    (hInv : Inv levels st)
    (hkeys : ∀ l ∈ levels, (row.lookup l.key).isSome)
    (hlvlI : levels[i]? = some lvlI)
    (hlvl : levels[i + 1]? = some lvlNext)
    (hne : normalize_name (stripOrNone ((row.lookup lvlI.key).getD "")) ≠ "")
    (hempty : normalize_name (stripOrNone ((row.lookup lvlNext.key).getD "")) = "") :
    ∃ st', processRow levels st row = some st' ∧
      ∀ id, st.arena.length ≤ id → (getDiv st'.arena id).path.length ≤ i + 1 := by
  obtain ⟨vals, hm⟩ := mapM_isSome_of_forall hkeys
  have hvals : vals = levels.map (fun l => (row.lookup l.key).getD "") :=
    mapM_eq_map_getD "" hm
  have hnames : vals.map stripOrNone
      = levels.map (fun l => stripOrNone ((row.lookup l.key).getD "")) := by
    rw [hvals, List.map_map]
    rfl
  have hget : (vals.map stripOrNone)[i + 1]?
      = some (stripOrNone ((row.lookup lvlNext.key).getD "")) := by
    rw [hnames, List.getElem?_map, hlvl]
    rfl
  have hstop : stopLen (vals.map stripOrNone) ≤ i + 1 := stopLen_le hget hempty
  have hroot0 : 0 < st.arena.length := hInv.2.1.1
  have hrootpath : (getDiv st.arena 0).path.length = 0 := by
    rw [hInv.2.1.2]
    rfl
  have hlen0 : 0 + (vals.map stripOrNone).length = levels.length := by
    simp [mapM_some_length hm]
  obtain ⟨_, _, hNB⟩ := insertLoop_spec levels row (vals.map stripOrNone) 0 0 st
    hInv hroot0 hrootpath hlen0
  refine ⟨insertLoop levels row 0 0 (vals.map stripOrNone) st, ?_, ?_⟩
  · unfold processRow
    rw [hm]
  · intro id hid
    by_cases hlt : id < (insertLoop levels row 0 0 (vals.map stripOrNone) st).arena.length
    · obtain ⟨_, hb⟩ := hNB id hid hlt
      omega
    · rw [getDiv_of_le (by omega)]
      show (0 : Nat) ≤ i + 1
      omega

def rowC7 : Row :=
  [("loc_adm1", "A"), ("loc_adm2", "X"), ("loc_adm3", ""), ("VILLAGE_NAME", "v")]

/-- C7 witness: a row with an empty Section cell is processed without error
and creates divisions only at the District and Chiefdom levels. -/
theorem c7_descent_stops_witness :
    (Inv DEFAULT_LEVELS ⟨freshArena, DEFAULT_LEVELS.map (fun _ => [])⟩ ∧
     (∀ l ∈ DEFAULT_LEVELS, (rowC7.lookup l.key).isSome) ∧
     DEFAULT_LEVELS[1]? = some ⟨"Chiefdom", "C", "loc_adm2"⟩ ∧
     DEFAULT_LEVELS[2]? = some ⟨"Section", "S", "loc_adm3"⟩ ∧
     normalize_name (stripOrNone ((rowC7.lookup "loc_adm2").getD "")) ≠ "" ∧
     normalize_name (stripOrNone ((rowC7.lookup "loc_adm3").getD "")) = "") ∧
    (∃ st', processRow DEFAULT_LEVELS
        ⟨freshArena, DEFAULT_LEVELS.map (fun _ => [])⟩ rowC7 = some st' ∧
      ∀ id, (freshArena.length : Nat) ≤ id →
        (getDiv st'.arena id).path.length ≤ 1 + 1) :=
  ⟨⟨Inv_fresh DEFAULT_LEVELS, by decide, by decide, by decide, by decide, by decide⟩,
   c7_descent_stops DEFAULT_LEVELS ⟨freshArena, DEFAULT_LEVELS.map (fun _ => [])⟩
     rowC7 1 ⟨"Chiefdom", "C", "loc_adm2"⟩ ⟨"Section", "S", "loc_adm3"⟩
     (Inv_fresh DEFAULT_LEVELS) (by decide) (by decide) (by decide) (by decide)
     (by decide)⟩

/-- C7 counterexample: the claim also covers a row with an *absent* value at
level `i + 1`; but a row lacking the `loc_adm2` column entirely (while
carrying a Nonempty value at level 0) makes the builder's upfront
`row[level.key]` extraction raise a key-lookup error instead of quietly
stopping the descent. -/
theorem c7_counterexample :
    (([("loc_adm1", "A"), ("loc_adm3", "P"), ("VILLAGE_NAME", "v")] : Row).lookup
        "loc_adm2" = none) ∧
    normalize_name (stripOrNone
      ((([("loc_adm1", "A"), ("loc_adm3", "P"), ("VILLAGE_NAME", "v")] : Row).lookup
        "loc_adm1").getD "")) ≠ "" ∧
    processRow DEFAULT_LEVELS ⟨freshArena, DEFAULT_LEVELS.map (fun _ => [])⟩
      [("loc_adm1", "A"), ("loc_adm3", "P"), ("VILLAGE_NAME", "v")] = none := by
  decide

/-! ### Claim C8: the menu tree's (other) catch-all -/

/-- Every penultimate-level menu column offers `(other)` among its entries. -/
theorem menu_column_penult_other (arena : List Division) (did : Nat) :
    "(other)" ∈ (menu_column arena true did).drop 1 := by
  unfold menu_column
  rw [List.drop_one, List.tail_cons]
  by_cases hmem : "(other)" ∈ (sort_divisions arena (getDiv arena did).children).map
      (fun cid => (getDiv arena cid).name)
  · rw [if_neg (by simp [hmem])]
    exact hmem
  · rw [if_pos ⟨rfl, hmem⟩]
    exact List.mem_append_right _ (List.mem_singleton_self _)

/-- C8: in the menu tree (at least two levels, else the source raises
`IndexError`), the column emitted for every division of the level directly
above the leaf level is present in the output and contains an `(other)`
entry among its child names: a literal `(other)` child if present, else the
synthetic appended one. -/
theorem c8_menu_other (arena : List Division) (sls : List (List Nat))
    (cols : List (List String))
    (h : write_csv_menu_tree_columns arena sls = some cols)
    (did : Nat) (hd : did ∈ getList sls (sls.length - 2)) :
    menu_column arena true did ∈ cols ∧
    "(other)" ∈ (menu_column arena true did).drop 1 := by
  refine ⟨?_, menu_column_penult_other arena did⟩
  unfold write_csv_menu_tree_columns at h
  by_cases hlen : sls.length < 2
  · rw [if_pos hlen] at h
    exact absurd h (by simp)
  · rw [if_neg hlen] at h
    simp only [Option.some.injEq] at h
    subst h
    have hlen2 : 2 ≤ sls.length := by omega
    have hgl : sls.length - 2 < sls.length := by omega
    have hgroups : ([[ (0 : Nat) ]] ++ sls.dropLast).length = sls.length := by
      rw [List.length_append, List.length_dropLast]
      show (1 : Nat) + (sls.length - 1) = sls.length
      omega
    have hklt : sls.length - 1 < ([[ (0 : Nat) ]] ++ sls.dropLast).length := by
      omega
    have hkltE : sls.length - 1 < ([[ (0 : Nat) ]] ++ sls.dropLast).enum.length := by
      rw [List.enum_length]
      exact hklt
    have hgetG : ([[ (0 : Nat) ]] ++ sls.dropLast)[sls.length - 1]
        = getList sls (sls.length - 2) := by
      have h1 : ([[ (0 : Nat) ]] : List (List Nat)).length ≤ sls.length - 1 := by
        show (1 : Nat) ≤ sls.length - 1
        omega
      rw [List.getElem_append_right h1]
      rw [getList_lt hgl]
      rw [List.getElem_dropLast]
      rfl
    refine List.mem_flatMap.mpr
      ⟨(sls.length - 1, getList sls (sls.length - 2)), ?_, ?_⟩
    · refine List.mem_iff_getElem.mpr ⟨sls.length - 1, hkltE, ?_⟩
      rw [List.getElem_enum, hgetG]
    · refine List.mem_map.mpr ⟨did, hd, ?_⟩
      rw [show ((sls.length - 1 : Nat) == sls.length - 1) = true from
        beq_self_eq_true _]

/-- The columns of the menu tree computed for `rowsC1`. -/
def c8_cols : List (List String) :=
  (write_csv_menu_tree_columns c1_run.1.arena c1_run.2.1).getD []

/-- C8 witness: on the duplicated-row input, Section P's column is emitted
with the synthetic `(other)` appended. -/
theorem c8_menu_other_witness :
    (write_csv_menu_tree_columns c1_run.1.arena c1_run.2.1 = some c8_cols ∧
     (3 : Nat) ∈ getList c1_run.2.1 (c1_run.2.1.length - 2) ∧
     c8_cols = [["", "A"], ["A", "X"], ["A/X", "P"],
       ["A/X/P", "v1", "v1", "(other)"]]) ∧
    (menu_column c1_run.1.arena true 3 ∈ c8_cols ∧
     "(other)" ∈ (menu_column c1_run.1.arena true 3).drop 1) :=
  ⟨⟨by decide, by decide, by decide⟩,
   c8_menu_other c1_run.1.arena c1_run.2.1 c8_cols (by decide) 3 (by decide)⟩

/-! ### Claim C5: non-leaf sibling names stay distinct -/

/-- C5: after the builder has consumed any sequence of records in a fresh
process, any two distinct children of a division at a non-leaf level carry
distinct names; moreover each builder step leaves every existing division's
name, path and row untouched — a record reaching an existing non-leaf name
under the same parent is merged into that division (which keeps its
originally stored row) rather than creating a sibling. -/
theorem c5_nonleaf_sibling_names (levels : List Level) (rows : List Row)
    (st : BuildState) (h : read_divisions levels rows = some st) :
    (∀ nid c1 c2, c1 ∈ (getDiv st.arena nid).children →
       c2 ∈ (getDiv st.arena nid).children → c1 ≠ c2 →
       (getDiv st.arena c1).path.length < levels.length →
       (getDiv st.arena c1).name ≠ (getDiv st.arena c2).name) ∧
    (∀ (st0 : BuildState) (row : Row) (st1 : BuildState), Inv levels st0 →
       processRow levels st0 row = some st1 →
       st0.arena.length ≤ st1.arena.length ∧
       ∀ id < st0.arena.length,
         (getDiv st1.arena id).name = (getDiv st0.arena id).name ∧
         (getDiv st1.arena id).path = (getDiv st0.arena id).path ∧
         (getDiv st1.arena id).row = (getDiv st0.arena id).row) := by
  constructor
  · intro nid c1 c2 h1 h2 hne hlen
    obtain ⟨hDlsLen, ⟨hRoot0, hRootPath⟩, hChild, hLists, hNodup⟩ :=
      read_divisions_inv h
    rcases Nat.lt_or_ge nid st.arena.length with hnid | hnid
    · obtain ⟨hc1lt, hc1path, _⟩ := hChild nid hnid c1 h1
      have hcond : (getDiv st.arena nid).path.length + 1 < levels.length := by
        rw [hc1path] at hlen
        simpa using hlen
      have hnd := hNodup nid hnid hcond
      intro heq
      exact hne (List.inj_on_of_nodup_map hnd h1 h2 heq)
    · rw [getDiv_of_le hnid] at h1
      simp [ROOT] at h1
  · intro st0 row st1 hInv0 hp
    obtain ⟨_, hPres⟩ := processRow_spec hInv0 hp
    exact ⟨hPres.1, hPres.2.1⟩

/-- Rows for the C5 witness: two rows sharing District A and Chiefdom X but
with different Sections. -/
def rowsC5 : List Row :=
  [rowA,
   [("loc_adm1", "A"), ("loc_adm2", "X"), ("loc_adm3", "Q"), ("VILLAGE_NAME", "v2")]]

def c5_st : BuildState := (read_divisions DEFAULT_LEVELS rowsC5).getD ⟨[], []⟩

/-- C5 witness: on `rowsC5` the builder merges the repeated `A` and `X` and
the resulting sibling names at non-leaf levels are distinct. -/
theorem c5_nonleaf_sibling_names_witness :
    (read_divisions DEFAULT_LEVELS rowsC5 = some c5_st) ∧
    ((∀ nid c1 c2, c1 ∈ (getDiv c5_st.arena nid).children →
       c2 ∈ (getDiv c5_st.arena nid).children → c1 ≠ c2 →
       (getDiv c5_st.arena c1).path.length < DEFAULT_LEVELS.length →
       (getDiv c5_st.arena c1).name ≠ (getDiv c5_st.arena c2).name) ∧
     (∀ (st0 : BuildState) (row : Row) (st1 : BuildState), Inv DEFAULT_LEVELS st0 →
       processRow DEFAULT_LEVELS st0 row = some st1 →
       st0.arena.length ≤ st1.arena.length ∧
       ∀ id < st0.arena.length,
         (getDiv st1.arena id).name = (getDiv st0.arena id).name ∧
         (getDiv st1.arena id).path = (getDiv st0.arena id).path ∧
         (getDiv st1.arena id).row = (getDiv st0.arena id).row)) :=
  ⟨by decide, c5_nonleaf_sibling_names DEFAULT_LEVELS rowsC5 c5_st (by decide)⟩

/-! ### Claim C10: every renderer rank lookup is defined -/

theorem getList_map_sort (arena : List Division) (dls : List (List Nat)) (i : Nat) :
    getList (dls.map (sort_divisions arena)) i = sort_divisions arena (getList dls i) := by
  rcases Nat.lt_or_ge i dls.length with hlt | hge
  · rw [getList_lt (by simpa using hlt), getList_lt hlt, List.getElem_map]
  · rw [getList_of_le (by simpa using hge), getList_of_le hge]
    rfl

/-- C10: after a fresh-process run, every division the renderer visits was
appended to its level's division list, so the rank index has an entry for its
path: every page number lookup and every child item lookup of
`write_gazetteer` is defined. -/
theorem c10_rank_lookups_defined (levels : List Level) (rows : List Row)
    (st : BuildState) (h : read_divisions levels rows = some st) :
    ∀ p ∈ write_gazetteer_pages st.arena
        (sort_and_number_divisions st.arena st.division_lists).1
        (sort_and_number_divisions st.arena st.division_lists).2,
      p.pageIndex.isSome ∧ ∀ it ∈ p.items, it.2.isSome := by
  obtain ⟨hDlsLen, ⟨hRoot0, hRootPath⟩, hChild, hLists, hNodup⟩ :=
    read_divisions_inv h
  intro p hp
  rw [sort_and_number_fst, sort_and_number_snd] at hp
  unfold write_gazetteer_pages at hp
  obtain ⟨i, hiR, hpmem⟩ := List.mem_flatMap.mp hp
  obtain ⟨did, hdid, hpe⟩ := List.mem_map.mp hpmem
  have hiR' : i < (st.division_lists.map (sort_divisions st.arena)).length - 1 :=
    List.mem_range.mp hiR
  have hilt : i < st.division_lists.length := by
    simp only [List.length_map] at hiR'
    omega
  have hilt1 : i + 1 < st.division_lists.length := by
    simp only [List.length_map] at hiR'
    omega
  rw [getList_map_sort] at hdid
  have hdid' : did ∈ getList st.division_lists i :=
    (List.mem_insertionSort (divLE st.arena)).mp hdid
  obtain ⟨hdidlt, hdidlen⟩ := hLists i hilt did hdid'
  subst hpe
  constructor
  · show (indexLookup (stackBlocks st.arena st.division_lists)
      (getDiv st.arena did).path).isSome
    exact stackBlocks_lookup_isSome st.arena st.division_lists i hilt
      (by rw [← getList_lt hilt]; exact hdid')
  · intro it hit
    obtain ⟨cid, hcid, hite⟩ := List.mem_map.mp hit
    have hcid' : cid ∈ (getDiv st.arena did).children :=
      (List.mem_insertionSort (divLE st.arena)).mp hcid
    obtain ⟨_, _, hcmem⟩ := hChild did hdidlt cid hcid'
    rw [hdidlen] at hcmem
    subst hite
    show (indexLookup (stackBlocks st.arena st.division_lists)
      (getDiv st.arena cid).path).isSome
    exact stackBlocks_lookup_isSome st.arena st.division_lists (i + 1) hilt1
      (by rw [← getList_lt hilt1]; exact hcmem)

def c10_st : BuildState := (read_divisions DEFAULT_LEVELS rowsC1).getD ⟨[], []⟩

/-- C10 witness: on the duplicated-row input every page and item lookup of
the renderer is defined. -/
theorem c10_rank_lookups_defined_witness :
    (read_divisions DEFAULT_LEVELS rowsC1 = some c10_st) ∧
    (∀ p ∈ write_gazetteer_pages c10_st.arena
        (sort_and_number_divisions c10_st.arena c10_st.division_lists).1
        (sort_and_number_divisions c10_st.arena c10_st.division_lists).2,
      p.pageIndex.isSome ∧ ∀ it ∈ p.items, it.2.isSome) :=
  ⟨by decide, c10_rank_lookups_defined DEFAULT_LEVELS rowsC1 c10_st (by decide)⟩

/-! ### Claim C4: rank monotonicity and contiguity -/

/-- C4 (amended): for every level, (monotonicity) if division A sorts strictly
before division B under the level's ordering rule, the final rank index maps
A's path to a strictly smaller rank than B's path; and (contiguity) when the
level's paths are pairwise distinct — always the case at non-leaf levels, and
at the leaf level exactly when no duplicate leaf paths exist — the ranks
taken by the level's paths are exactly 1, 2, ..., n.  (With duplicate leaf
paths the dict index collapses the duplicates onto a single rank and the set
is no longer contiguous; see the counterexample.) -/
theorem c4_rank_monotone_contiguous (arena : List Division)
    (dls : List (List Nat))
    (hlen : ∀ i' (hi' : i' < dls.length), ∀ cid ∈ dls[i'],
      (getDiv arena cid).path.length = i' + 1) :
    (∀ (i : Nat) (hi : i < dls.length) (A B : Nat), A ∈ dls[i] → B ∈ dls[i] →
      keyLt (sortKey (getDiv arena A).path) (sortKey (getDiv arena B).path)
        = true →
      ∃ rA rB,
        indexLookup (sort_and_number_divisions arena dls).2
          (getDiv arena A).path = some rA ∧
        indexLookup (sort_and_number_divisions arena dls).2
          (getDiv arena B).path = some rB ∧ rA < rB) ∧
    (∀ (i : Nat) (hi : i < dls.length),
      (dls[i].map (fun d => (getDiv arena d).path)).Nodup →
      ∀ r : Nat, (1 ≤ r ∧ r ≤ dls[i].length) ↔
        ∃ A ∈ dls[i], indexLookup (sort_and_number_divisions arena dls).2
          (getDiv arena A).path = some r) := by
  haveI instTot : IsTotal Nat (divLE arena) := ⟨fun a b => by
    unfold divLE
    rcases keyLe_total (sortKey (getDiv arena a).path)
      (sortKey (getDiv arena b).path) with hc | hc
    · exact Or.inl hc
    · exact Or.inr hc⟩
  haveI instTr : IsTrans Nat (divLE arena) :=
    ⟨fun a b c hab hbc => keyLe_trans _ _ _ hab hbc⟩
  have hlen0 : ∀ i' (hi' : i' < dls.length), ∀ cid ∈ dls[i'],
      (getDiv arena cid).path.length = i' + 1 + 0 := by
    intro i' hi' cid hcid
    have := hlen i' hi' cid hcid
    omega
  constructor
  · intro i hi A B hA hB hkey
    have hpA : (getDiv arena A).path.length = i + 1 := hlen i hi A hA
    have hpB : (getDiv arena B).path.length = i + 1 := hlen i hi B hB
    have hsorted : List.Sorted (divLE arena) (sort_divisions arena dls[i]) :=
      List.sorted_insertionSort (divLE arena) dls[i]
    have hAs : A ∈ sort_divisions arena dls[i] :=
      (List.mem_insertionSort (divLE arena)).mpr hA
    have hBs : B ∈ sort_divisions arena dls[i] :=
      (List.mem_insertionSort (divLE arena)).mpr hB
    obtain ⟨mA0, hmA0, heA⟩ := List.mem_iff_getElem.mp hAs
    obtain ⟨mB0, hmB0, heB⟩ := List.mem_iff_getElem.mp hBs
    obtain ⟨rA, hrA⟩ := Option.isSome_iff_exists.mp
      (blockFrom_lookup_isSome arena _ 0 hmA0 (by rw [heA]))
    obtain ⟨rB, hrB⟩ := Option.isSome_iff_exists.mp
      (blockFrom_lookup_isSome arena _ 0 hmB0 (by rw [heB]))
    obtain ⟨mA, hmA, hpmA, hrmA⟩ := blockFrom_lookup_some arena _ 0 hrA
    obtain ⟨mB, hmB, hpmB, hrmB⟩ := blockFrom_lookup_some arena _ 0 hrB
    have hIsoA := stackBlocks_lookup_isolate arena dls 0 hlen0 i hi
      (getDiv arena A).path (by omega)
    have hIsoB := stackBlocks_lookup_isolate arena dls 0 hlen0 i hi
      (getDiv arena B).path (by omega)
    refine ⟨rA, rB, ?_, ?_, ?_⟩
    · show List.lookup (getDiv arena A).path (sort_and_number_divisions arena dls).2
        = some rA
      rw [sort_and_number_snd, hIsoA]
      exact hrA
    · show List.lookup (getDiv arena B).path (sort_and_number_divisions arena dls).2
        = some rB
      rw [sort_and_number_snd, hIsoB]
      exact hrB
    · have hmAB : mA < mB := by
        rcases lt_trichotomy mA mB with hlt | heq | hgt
        · exact hlt
        · exfalso
          subst heq
          have : (getDiv arena A).path = (getDiv arena B).path :=
            hpmA.symm.trans hpmB
          rw [this] at hkey
          have := keyLt_eq_true_iff.mp hkey
          rw [keyLe_refl] at this
          exact absurd this (by simp)
        · exfalso
          have hrel := @List.Sorted.rel_get_of_lt _ _ _ hsorted
            ⟨mB, hmB⟩ ⟨mA, hmA⟩ hgt
          have hrel' : keyLe (sortKey (getDiv arena B).path)
              (sortKey (getDiv arena A).path) = true := by
            have hg1 : (sort_divisions arena dls[i]).get ⟨mB, hmB⟩
                = (sort_divisions arena dls[i])[mB] := rfl
            have hg2 : (sort_divisions arena dls[i]).get ⟨mA, hmA⟩
                = (sort_divisions arena dls[i])[mA] := rfl
            unfold divLE at hrel
            rw [hg1, hg2] at hrel
            rw [← hpmB, ← hpmA]
            exact hrel
          have := keyLt_eq_true_iff.mp hkey
          rw [hrel'] at this
          exact absurd this (by simp)
      omega
  · intro i hi hnd r
    have hperm : (sort_divisions arena dls[i]).Perm dls[i] :=
      List.perm_insertionSort (divLE arena) dls[i]
    have hnds : ((sort_divisions arena dls[i]).map
        (fun d => (getDiv arena d).path)).Nodup :=
      (hperm.map (fun d => (getDiv arena d).path)).nodup_iff.mpr hnd
    have hlens : (sort_divisions arena dls[i]).length = dls[i].length :=
      hperm.length_eq
    constructor
    · rintro ⟨hr1, hrn⟩
      have hm : r - 1 < (sort_divisions arena dls[i]).length := by omega
      have hAmem : (sort_divisions arena dls[i])[r - 1] ∈ dls[i] :=
        (List.mem_insertionSort (divLE arena)).mp (List.getElem_mem hm)
      refine ⟨(sort_divisions arena dls[i])[r - 1], hAmem, ?_⟩
      show List.lookup (getDiv arena ((sort_divisions arena dls[i])[r - 1])).path
        (sort_and_number_divisions arena dls).2 = some r
      rw [sort_and_number_snd]
      rw [stackBlocks_lookup_isolate arena dls 0 hlen0 i hi _
        (by have := hlen i hi _ hAmem; omega)]
      rw [blockFrom_lookup_nodup arena _ 0 hm hnds]
      exact congrArg some (by omega)
    · rintro ⟨A, hA, hAr⟩
      have hIso := stackBlocks_lookup_isolate arena dls 0 hlen0 i hi
        (getDiv arena A).path (by have := hlen i hi A hA; omega)
      rw [show indexLookup (sort_and_number_divisions arena dls).2
          (getDiv arena A).path = List.lookup (getDiv arena A).path
            (sort_and_number_divisions arena dls).2 from rfl,
        sort_and_number_snd, hIso] at hAr
      obtain ⟨m, hm, _, hrm⟩ := blockFrom_lookup_some arena _ 0 hAr
      rw [hlens] at hm
      omega

/-- Rows for the C4 witness: two villages with distinct names under one
Section, so every level's paths are pairwise distinct. -/
def rowsC4 : List Row :=
  [rowA,
   [("loc_adm1", "A"), ("loc_adm2", "X"), ("loc_adm3", "P"), ("VILLAGE_NAME", "v2")]]

def c4_st : BuildState := (read_divisions DEFAULT_LEVELS rowsC4).getD ⟨[], []⟩

/-- C4 witness: the amended theorem applied to the two-village run. -/
theorem c4_rank_monotone_contiguous_witness :
    (∀ i' (hi' : i' < c4_st.division_lists.length),
      ∀ cid ∈ c4_st.division_lists[i'],
        (getDiv c4_st.arena cid).path.length = i' + 1) ∧
    ((∀ (i : Nat) (hi : i < c4_st.division_lists.length) (A B : Nat),
      A ∈ c4_st.division_lists[i] → B ∈ c4_st.division_lists[i] →
      keyLt (sortKey (getDiv c4_st.arena A).path)
        (sortKey (getDiv c4_st.arena B).path) = true →
      ∃ rA rB,
        indexLookup (sort_and_number_divisions c4_st.arena c4_st.division_lists).2
          (getDiv c4_st.arena A).path = some rA ∧
        indexLookup (sort_and_number_divisions c4_st.arena c4_st.division_lists).2
          (getDiv c4_st.arena B).path = some rB ∧ rA < rB) ∧
    (∀ (i : Nat) (hi : i < c4_st.division_lists.length),
      (c4_st.division_lists[i].map (fun d => (getDiv c4_st.arena d).path)).Nodup →
      ∀ r : Nat, (1 ≤ r ∧ r ≤ c4_st.division_lists[i].length) ↔
        ∃ A ∈ c4_st.division_lists[i],
          indexLookup (sort_and_number_divisions c4_st.arena c4_st.division_lists).2
            (getDiv c4_st.arena A).path = some r)) :=
  ⟨by decide, c4_rank_monotone_contiguous c4_st.arena c4_st.division_lists (by decide)⟩

/-- C4 counterexample: with two identical leaf rows, the leaf level's list
has two divisions (n = 2) sharing one path; the index maps that path to rank
2 only, so no division of the level carries rank 1 and the set of ranks is
not the contiguous 1, 2. -/
theorem c4_counterexample :
    getList c1_run.1.division_lists 3 = [4, 5] ∧
    (getDiv c1_run.1.arena 4).path = (getDiv c1_run.1.arena 5).path ∧
    (∀ d ∈ getList c1_run.1.division_lists 3,
      indexLookup c1_run.2.2 (getDiv c1_run.1.arena d).path = some 2) ∧
    ¬ (∃ d ∈ getList c1_run.1.division_lists 3,
      indexLookup c1_run.2.2 (getDiv c1_run.1.arena d).path = some 1) := by
  decide

end WAMM
